import Mathlib

/-
  Verification of the BOM Collection and Resolution Engine
  (xlsx_to_graphdb repository) against its natural-language specification.

  Shallow embedding: the relevant Python functions are translated into Lean
  definitions. JSON-like values (dicts/lists returned by the remote service
  or pandas) are modelled by the inductive type Json below; Python truthiness,
  the or-chains on dict lookups, and str() coercions are modelled explicitly.
  Machine integers do not overflow in any modelled code path (levels and
  depths are small), so Nat/Int are used directly.
-/

namespace XlsxGraph

/-- Model of a Python/JSON value as produced by json.load or pandas cells. -/
inductive Json where
  | null : Json
  | bool : Bool → Json
  | num : Int → Json
  | str : String → Json
  | arr : List Json → Json
  | obj : List (String × Json) → Json

/-- Python truthiness of a JSON-like value: None, False, 0, "", [], {} are falsy. -/
def truthy : Json → Bool
  | Json.null => false
  | Json.bool b => b
  | Json.num n => n != 0
  | Json.str s => s ≠ ""
  | Json.arr l => !l.isEmpty
  | Json.obj l => !l.isEmpty

/-- Python truthiness of an optional value (None is falsy). -/
def truthyOpt : Option Json → Bool
  | none => false
  | some j => truthy j

/-- Python str() of a JSON-like value (the cases the code can reach). -/
def pyStr : Json → String
  | Json.null => "None"
  | Json.bool b => if b then "True" else "False"
  | Json.num n => toString n
  | Json.str s => s
  | Json.arr _ => "[...]"
  | Json.obj _ => "\x7b...\x7d"

/-- Python dict lookup d.get(k): first binding wins, None when absent. -/
def jget (fields : List (String × Json)) (k : String) : Option Json :=
  (fields.find? (fun p => p.1 == k)).map (fun p => p.2)

/-- Python expression a or b on optional values: a if truthy, else b. -/
def pyOr (a b : Option Json) : Option Json :=
  if truthyOpt a then a else b

/-- Python equality test between a JSON value and a str: only str compares equal. -/
def pyEqStr (j : Json) (s : String) : Bool :=
  match j with
  | Json.str t => t == s
  | _ => false

/-- Auxiliary dedup pass with an accumulator of already-seen pairs. -/
def dedupAux : List (String × String) → List (String × String) → List (String × String)
  | [], _ => []
  | e :: rest, seen =>
      if e ∈ seen then dedupAux rest seen else e :: dedupAux rest (e :: seen)

/-- Keep the first occurrence of each element, dropping later duplicates:
    the effect of list(dict.fromkeys(edges)) in Python. -/
def dedupKeepFirst (l : List (String × String)) : List (String × String) :=
  dedupAux l []

/-- normalize_part_number from spreadsheet_loader.py: NaN/None cells become "",
    other values are coerced with str(). (Cells are modelled as Option Json,
    none standing for a missing/NaN cell.) -/
def normalize_part_number : Option Json → String
  | none => ""
  | some Json.null => ""
  | some j => pyStr j

/-- SpreadsheetParser.parse_bom_csv, row loop (spreadsheet_loader.py:158-164):
    each CSV row contributes the pair of its normalized parent/child cells
    whenever both are non-empty. No dedup and no self-loop check is applied. -/
def parse_bom_csv (rows : List (Option Json × Option Json)) : List (String × String) :=
  rows.foldl
    (fun edges row =>
      let parent := normalize_part_number row.1
      let child := normalize_part_number row.2
      if parent ≠ "" ∧ child ≠ "" then edges ++ [(parent, child)] else edges)
    []

/-- The list of "children"-like field aliases scanned by
    Transporter._extract_edges_generic (transporter.py:67). -/
def childKeys : List String :=
  ["children", "Children", "components", "Components", "items", "Items",
   "value", "Value", "nodes", "relations", "edges", "downstream", "structure", "Parts"]

/-- The number-like field of a dict node:
    obj.get("Number") or obj.get("number") or obj.get("PartNumber"). -/
def numField (fields : List (String × Json)) : Option Json :=
  pyOr (pyOr (jget fields "Number") (jget fields "number")) (jget fields "PartNumber")

/-- Python truthiness of the optional parent string. -/
def parentTruthy : Option String → Bool
  | none => false
  | some p => p ≠ ""

/-- Python num != parent for an optional raw value and an optional string:
    only equal (hence false) when num is that very string. -/
def numNeqParent : Option Json → Option String → Bool
  | some n, some p => !(pyEqStr n p)
  | _, _ => true

/-- The guard of the edge emission in the walk:
    if parent and num and num != parent. -/
def emitCond (parent : Option String) (num : Option Json) : Bool :=
  parentTruthy parent && truthyOpt num && numNeqParent num parent

mutual

/-- Structural size of a Json value, used as recursion fuel for the
    unguarded recursive walk of extract_edges_generic. -/
def jsize : Json → Nat
  | Json.null => 1
  | Json.bool _ => 1
  | Json.num _ => 1
  | Json.str _ => 1
  | Json.arr l => 1 + jsizeList l
  | Json.obj l => 1 + jsizeFields l

/-- Size of a list of Json values. -/
def jsizeList : List Json → Nat
  | [] => 0
  | j :: rest => jsize j + jsizeList rest

/-- Size of the field list of a Json object. -/
def jsizeFields : List (String × Json) → Nat
  | [] => 0
  | p :: rest => jsize p.2 + jsizeFields rest

end

/-- The recursive walk of Transporter._extract_edges_generic
    (transporter.py:59-79), modelled with explicit fuel; the fuel is
    instantiated with the structural size of the input, which strictly bounds
    the recursion depth, so the cut-off branch is never taken. -/
def walk : Nat → Json → Option String → List (String × String)
  | 0, _, _ => []
  | Nat.succ fuel, Json.arr l, parent =>
      l.foldl (fun acc it => acc ++ walk fuel it parent) []
  | Nat.succ fuel, Json.obj fields, parent =>
      let num := numField fields
      let cond := emitCond parent num
      let localParent : Option String := if cond then num.map pyStr else parent
      let edgeHere : List (String × String) :=
        if cond then
          match parent, num with
          | some p, some n => [(p, pyStr n)]
          | _, _ => []
        else []
      let childCandidates : List (List Json) :=
        childKeys.foldl
          (fun acc k =>
            acc ++
              match jget fields k with
              | some (Json.arr l) => if !l.isEmpty then [l] else []
              | _ => [])
          []
      let candEdges :=
        childCandidates.foldl
          (fun acc arr => acc ++ arr.foldl (fun a2 ch => a2 ++ walk fuel ch localParent) [])
          []
      let itemEdges :=
        fields.foldl
          (fun acc kv =>
            acc ++
              match kv.2 with
              | Json.obj l => walk fuel (Json.obj l) localParent
              | Json.arr l => walk fuel (Json.arr l) localParent
              | _ => [])
          []
      edgeHere ++ candEdges ++ itemEdges
  | Nat.succ _, _, _ => []

/-- Transporter._extract_edges_generic (transporter.py:57-83): run the walk,
    then drop duplicate (parent, child) pairs keeping first occurrences
    (list(dict.fromkeys(edges))). -/
def extract_edges_generic (sj : Json) (current_parent : Option String) : List (String × String) :=
  dedupKeepFirst (walk (jsize sj) sj current_parent)

/-- A structure all of whose dict nodes carry a string (or falsy/absent)
    number-like field: the shapes under which the flattener never emits a
    self-loop. -/
inductive StrNumbered : Json → Prop where
  | null : StrNumbered Json.null
  | bool : ∀ b, StrNumbered (Json.bool b)
  | num : ∀ n, StrNumbered (Json.num n)
  | str : ∀ s, StrNumbered (Json.str s)
  | arr : ∀ l, (∀ j ∈ l, StrNumbered j) → StrNumbered (Json.arr l)
  | obj : ∀ fields, (∀ p ∈ fields, StrNumbered p.2) →
      (∀ n, numField fields = some n → truthy n = true → ∃ s, n = Json.str s) →
      StrNumbered (Json.obj fields)

/-
  Level-indexed (hierarchical) BOM parsing.
  Two near-identical sources: convert_hierarchical_bom.py
  (convert_hierarchical_to_parent_child, lines 21-44, no logging in the loop)
  and scripts/visualize_graph.py (parse_hierarchical_bom, lines 74-99, which
  logs a warning when a row has no parent). Rows are (number, level) after
  the dataframe cleanup; the level stack is a dict from level to the most
  recent number at that level. The Nat component of each parser's result
  counts the logging.warning calls issued by the loop, making the logging
  side effect observable; convert_hierarchical_bom.py makes none.
-/

/-- One loop iteration of convert_hierarchical_to_parent_child
    (convert_hierarchical_bom.py:24-44). State: (level stack, edges, warning
    count). The stack write happens before the edge emission, the clearing of
    deeper levels after it, as in the source. -/
def convert_step (s : (Int → Option String) × List (String × String) × Nat)
    (row : String × Int) : (Int → Option String) × List (String × String) × Nat :=
  let part := row.1
  let level := row.2
  let stack1 : Int → Option String := fun l => if l = level then some part else s.1 l
  let out :=
    if 0 < level then
      match stack1 (level - 1) with
      | some parent => (s.2.1 ++ [(parent, part)], s.2.2)
      | none => (s.2.1, s.2.2)
    else (s.2.1, s.2.2)
  let stack2 : Int → Option String := fun l => if level < l then none else stack1 l
  (stack2, out)

/-- convert_hierarchical_to_parent_child (convert_hierarchical_bom.py:21-51):
    returns the edge list and the number of warnings logged (always zero:
    the source loop has no logging call). -/
def convert_hierarchical_to_parent_child (rows : List (String × Int)) :
    List (String × String) × Nat :=
  (rows.foldl convert_step (fun _ => none, [], 0)).2

/-- One loop iteration of parse_hierarchical_bom (visualize_graph.py:77-96):
    identical to convert_step except that edges carry the level and a missing
    parent logs a warning. -/
def parse_hier_step (s : (Int → Option String) × List (String × String × Int) × Nat)
    (row : String × Int) : (Int → Option String) × List (String × String × Int) × Nat :=
  let part := row.1
  let level := row.2
  let stack1 : Int → Option String := fun l => if l = level then some part else s.1 l
  let out :=
    if 0 < level then
      match stack1 (level - 1) with
      | some parent => (s.2.1 ++ [(parent, part, level)], s.2.2)
      | none => (s.2.1, s.2.2 + 1)
    else (s.2.1, s.2.2)
  let stack2 : Int → Option String := fun l => if level < l then none else stack1 l
  (stack2, out)

/-- parse_hierarchical_bom (visualize_graph.py:54-99): parent-child-level
    triples plus the number of no-parent warnings logged. -/
def parse_hierarchical_bom (rows : List (String × Int)) :
    List (String × String × Int) × Nat :=
  (rows.foldl parse_hier_step (fun _ => none, [], 0)).2

/-- The level stack after processing a prefix of rows. -/
def levelStackAfter (rows : List (String × Int)) : Int → Option String :=
  (rows.foldl convert_step (fun _ => none, [], 0)).1

/-- The edge contributed by row i (none when the row is a root or has no
    parent at level-1 in the stack). Reading the stack of the prefix at
    level-1 is exact: the write of the current row targets key level ≠
    level-1 and the clearing runs only after the emission. -/
def emittedAt (rows : List (String × Int)) (i : Nat) : Option (String × String) :=
  match rows[i]? with
  | none => none
  | some (part, level) =>
      if 0 < level then
        (levelStackAfter (rows.take i) (level - 1)).map (fun parent => (parent, part))
      else none

/-- The most recent row at a given level within a prefix: the claim's
    "most recently seen row at level L-1". -/
def lastAtLevel (pre : List (String × Int)) (l : Int) : Option String :=
  ((pre.filter (fun r => r.2 = l)).map Prod.fst).getLast?

/-- Whether row i is an orphan: a non-root row with no level-1 entry in the
    stack when it is processed. -/
def orphanAt (rows : List (String × Int)) (i : Nat) : Bool :=
  match rows[i]? with
  | some (_, level) => 0 < level && (levelStackAfter (rows.take i) (level - 1)).isNone
  | none => false

/-
  Metadata merge (Transporter._normalize_part_details, lines 166-185, and
  Transporter._merge_part_details_from_struct, lines 187-220).
  A PartRecord's attribute dict always holds the seven keys below (a missing
  key behaves like a None value under .get, so both are modelled as none).
  Part numbers are used as dict keys exactly as returned by the structure
  (raw values), so the parts map is keyed by Json with structural equality.
-/

mutual

/-- Structural (Python ==) equality of two Json values. -/
def jbeq : Json → Json → Bool
  | Json.null, Json.null => true
  | Json.bool a, Json.bool b => a == b
  | Json.num a, Json.num b => a == b
  | Json.str a, Json.str b => a == b
  | Json.arr a, Json.arr b => jbeqList a b
  | Json.obj a, Json.obj b => jbeqFields a b
  | _, _ => false

/-- Structural equality of two Json lists. -/
def jbeqList : List Json → List Json → Bool
  | [], [] => true
  | a :: as0, b :: bs0 => jbeq a b && jbeqList as0 bs0
  | _, _ => false

/-- Structural equality of two Json field lists. -/
def jbeqFields : List (String × Json) → List (String × Json) → Bool
  | [], [] => true
  | a :: as0, b :: bs0 => (a.1 == b.1) && jbeq a.2 b.2 && jbeqFields as0 bs0
  | _, _ => false

end

/-- The normalized attribute record of a part: the seven keys produced by
    _normalize_part_details. A value of none models both an absent key and a
    Python None value (indistinguishable under dict.get). -/
structure PartDetails where
  name : Option String
  type : Option String
  view : Option String
  state : Option String
  source : Option String
  revision : Option String
  container : Option String
  deriving DecidableEq, Repr

/-- The record with no attribute filled. -/
def emptyPartDetails : PartDetails :=
  ⟨none, none, none, none, none, none, none⟩

/-- The attribute keys, for field-indexed statements. -/
inductive PartField where
  | name | type | view | state | source | revision | container
  deriving DecidableEq

/-- Field projection of a PartDetails by key. -/
def getF : PartField → PartDetails → Option String
  | PartField.name, d => d.name
  | PartField.type, d => d.type
  | PartField.view, d => d.view
  | PartField.state, d => d.state
  | PartField.source, d => d.source
  | PartField.revision, d => d.revision
  | PartField.container, d => d.container

/-- scalar() inside _normalize_part_details: None stays None, a dict yields
    str of its Value/value entry when the key is present (None otherwise),
    anything else is str()-ed. -/
def scalar : Option Json → Option String
  | none => none
  | some Json.null => none
  | some (Json.obj fields) =>
      match jget fields "Value" with
      | some jv => some (pyStr jv)
      | none =>
          match jget fields "value" with
          | some jv => some (pyStr jv)
          | none => none
  | some j => some (pyStr j)

/-- _normalize_part_details (transporter.py:166-185). -/
def normalize_part_details (details : List (String × Json)) : PartDetails :=
  { name := scalar (pyOr (jget details "Name") (jget details "name")),
    type := scalar (pyOr (pyOr (jget details "Type") (jget details "type"))
      (jget details "@odata.type")),
    view := scalar (pyOr (jget details "View") (jget details "view")),
    state := scalar (pyOr (jget details "State") (jget details "state")),
    source := scalar (pyOr (jget details "Source") (jget details "source")),
    revision := scalar (pyOr (jget details "Revision") (jget details "revision")),
    container := scalar (pyOr (pyOr (jget details "Container") (jget details "container"))
      (jget details "OrganizationName")) }

/-- Store a possibly-missing lookup result as a dict value (None when
    absent), as details_from_obj does. -/
def optToJson : Option Json → Json
  | none => Json.null
  | some j => j

/-- details_from_obj inside _merge_part_details_from_struct
    (transporter.py:190-200); Identity falls back to the empty dict. -/
def details_from_obj (obj : List (String × Json)) : List (String × Json) :=
  let identity : List (String × Json) :=
    match jget obj "Identity" with
    | some (Json.obj f) => f
    | _ => []
  [("Name", optToJson (pyOr (jget obj "Name") (jget identity "Name"))),
   ("Type", optToJson (pyOr (jget obj "Type") (jget obj "@odata.type"))),
   ("View", optToJson (jget obj "View")),
   ("State", optToJson (jget obj "State")),
   ("Source", optToJson (jget obj "Source")),
   ("Revision", optToJson (jget obj "Revision")),
   ("Container", optToJson (pyOr (jget obj "Container") (jget obj "OrganizationName")))]

/-- get_num inside _merge_part_details_from_struct (transporter.py:188-189):
    obj.get("PartNumber") or obj.get("Number") or obj.get("number"),
    returned raw. -/
def get_num (obj : List (String × Json)) : Option Json :=
  pyOr (pyOr (jget obj "PartNumber") (jget obj "Number")) (jget obj "number")

/-- One field of the fill-gaps loop: set only when the incoming value is not
    None and the existing one is falsy (absent, None or the empty string). -/
def fillField (old v : Option String) : Option String :=
  match v with
  | none => old
  | some s =>
      match old with
      | none => some s
      | some t => if t = "" then some s else some t

/-- The fill-gaps loop over the seven normalized keys
    (transporter.py:206-208 and 217-219). -/
def mergeInto (existing merged : PartDetails) : PartDetails :=
  { name := fillField existing.name merged.name,
    type := fillField existing.type merged.type,
    view := fillField existing.view merged.view,
    state := fillField existing.state merged.state,
    source := fillField existing.source merged.source,
    revision := fillField existing.revision merged.revision,
    container := fillField existing.container merged.container }

/-- Python dict lookup in the parts map (keys are raw Json values). -/
def lookupKey (parts : List (Json × PartDetails)) (k : Json) : Option PartDetails :=
  (parts.find? (fun p => jbeq p.1 k)).map (fun p => p.2)

/-- Python dict store parts n = v: replace the value of the first matching
    key, else append a new binding at the end. -/
def setKey : List (Json × PartDetails) → Json → PartDetails → List (Json × PartDetails)
  | [], k, v => [(k, v)]
  | p :: rest, k, v =>
      if jbeq p.1 k then (p.1, v) :: rest else p :: setKey rest k v

/-- existing = parts.get(n) or empty; fill gaps; parts n = existing. -/
def mergeEntry (parts : List (Json × PartDetails)) (k : Json) (frag : PartDetails) :
    List (Json × PartDetails) :=
  setKey parts k (mergeInto ((lookupKey parts k).getD emptyPartDetails) frag)

/-- _merge_part_details_from_struct (transporter.py:187-220): merge the
    parent node's fragment, then each component's. (Components that are not
    dicts would raise in Python and are outside the modelled domain.) -/
def merge_part_details_from_struct (struct : List (String × Json))
    (parts : List (Json × PartDetails)) : List (Json × PartDetails) :=
  let parts1 :=
    match get_num struct with
    | some n =>
        if truthy n then
          mergeEntry parts n (normalize_part_details (details_from_obj struct))
        else parts
    | none => parts
  let comps :=
    match jget struct "Components" with
    | some (Json.arr l) => l
    | _ => []
  comps.foldl
    (fun acc c =>
      match c with
      | Json.obj cf =>
          match get_num cf with
          | some n =>
              if truthy n then
                mergeEntry acc n (normalize_part_details (details_from_obj cf))
              else acc
          | none => acc
      | _ => acc)
    parts1

/-
  Name-based BOM resolution (spreadsheet_loader.py resolve_edges_by_name,
  lines 466-491, and the inline classification loop of import_data, lines
  584-630). The cross-reference index name_to_pn is modelled as a total
  function to candidate lists (dict.get returning None and returning [] are
  indistinguishable under the code's falsiness checks); the optional parts
  map enters only through key-membership tests, so it is modelled by its key
  list.
-/

/-- Python str.strip(): drop leading and trailing whitespace. Implemented
    over the character list so that it reduces in the kernel. -/
def dropLeadingWs : List Char → List Char
  | [] => []
  | c :: rest => if c.isWhitespace then dropLeadingWs rest else c :: rest

/-- Python str.strip() of a name. -/
def pyStrip (s : String) : String :=
  String.mk ((dropLeadingWs (dropLeadingWs s.data).reverse).reverse)

/-- Truthiness of the optional parts dict (None and the empty dict are
    falsy). -/
def partsTruthy : Option (List String) → Bool
  | none => false
  | some ps => !ps.isEmpty

/-- The candidate list the resolver works with, after the fallback of
    resolve_edges_by_name lines 474-477: a name with no index candidates that
    is itself a key of the parts map counts as its own single candidate. -/
def effCandidates (name_to_pn : String → List String) (parts : Option (List String))
    (key : String) : List String :=
  let l := name_to_pn key
  if l.isEmpty && partsTruthy parts &&
      (match parts with | some ps => ps.contains key | none => false) then
    [key]
  else l

/-- A row both of whose stripped names resolve to exactly one candidate. -/
def rowGood (name_to_pn : String → List String) (parts : Option (List String))
    (row : String × String) : Bool :=
  (effCandidates name_to_pn parts (pyStrip row.1)).length == 1 &&
  (effCandidates name_to_pn parts (pyStrip row.2)).length == 1

/-- The edge a resolvable row produces: first (only) candidate of each side. -/
def pickRow (name_to_pn : String → List String) (parts : Option (List String))
    (row : String × String) : String × String :=
  ((effCandidates name_to_pn parts (pyStrip row.1)).headD "",
   (effCandidates name_to_pn parts (pyStrip row.2)).headD "")

/-- One loop iteration of resolve_edges_by_name (a raised error is final:
    the remaining rows are not processed). -/
def rebn_step (name_to_pn : String → List String) (strict : Bool)
    (parts : Option (List String)) (st : Except String (List (String × String) × Nat))
    (row : String × String) : Except String (List (String × String) × Nat) :=
  match st with
  | Except.error e => Except.error e
  | Except.ok (resolved, skipped) =>
      let p_list := effCandidates name_to_pn parts (pyStrip row.1)
      let c_list := effCandidates name_to_pn parts (pyStrip row.2)
      if p_list.isEmpty || c_list.isEmpty then
        if strict then
          Except.error ("Unknown part name in BOM: " ++ row.1 ++ " or " ++ row.2)
        else Except.ok (resolved, skipped + 1)
      else if p_list.length != 1 || c_list.length != 1 then
        if strict then
          Except.error ("Ambiguous part name in BOM: " ++ row.1 ++ " or " ++ row.2)
        else Except.ok (resolved, skipped + 1)
      else Except.ok (resolved ++ [(p_list.headD "", c_list.headD "")], skipped)

/-- resolve_edges_by_name (spreadsheet_loader.py:466-491): in strict mode the
    first unknown/ambiguous row raises, in lenient mode such rows are counted
    in the skipped tally; resolvable rows append one number edge. -/
def resolve_edges_by_name (name_edges : List (String × String))
    (name_to_pn : String → List String) (strict : Bool) (parts : Option (List String)) :
    Except String (List (String × String) × Nat) :=
  name_edges.foldl (rebn_step name_to_pn strict parts) (Except.ok ([], 0))

/-- Whether an import_data row is unknown: a side with no candidates
    (the import_data loop has no parts fallback). -/
def importUnknown (name_to_pn : String → List String) (row : String × String) : Bool :=
  (name_to_pn (pyStrip row.1)).isEmpty || (name_to_pn (pyStrip row.2)).isEmpty

/-- Whether an import_data row is ambiguous: known on both sides but some
    side has more than one candidate. -/
def importAmbiguous (name_to_pn : String → List String) (row : String × String) : Bool :=
  !(importUnknown name_to_pn row) &&
  ((name_to_pn (pyStrip row.1)).length != 1 || (name_to_pn (pyStrip row.2)).length != 1)

/-- One iteration of import_data's classification loop. -/
def import_nr_step (name_to_pn : String → List String)
    (st : List (String × String) × Nat × Nat) (row : String × String) :
    List (String × String) × Nat × Nat :=
  let p_candidates := name_to_pn (pyStrip row.1)
  let c_candidates := name_to_pn (pyStrip row.2)
  if p_candidates.isEmpty || c_candidates.isEmpty then
    (st.1, st.2.1 + 1, st.2.2)
  else if p_candidates.length != 1 || c_candidates.length != 1 then
    (st.1, st.2.1, st.2.2 + 1)
  else (st.1 ++ [(p_candidates.headD "", c_candidates.headD "")], st.2.1, st.2.2)

/-- The name-resolution loop of import_data (spreadsheet_loader.py:584-613):
    returns (resolved edges, unknown count, ambiguous count); import_data
    then raises when strict_names is set and unknown + ambiguous > 0. -/
def import_name_resolution (name_edges : List (String × String))
    (name_to_pn : String → List String) : List (String × String) × Nat × Nat :=
  name_edges.foldl (import_nr_step name_to_pn) ([], 0, 0)

/-
  Crawler depth budget (Transporter.collect). The structure-fetch depth is
  computed as max(1, min(max_depth - depth, 9)) at transporter.py:278 (id
  path, req_depth) and transporter.py:315 (number path, req_levels).
  Children are enqueued at depth+1 only when depth < max_depth
  (transporter.py:295 and 325), so the reachable dequeue depths are exactly
  those generated by DepthReachable.
-/

/-- The depth requested from the remote structure fetch for an item dequeued
    at the given depth (transporter.py:278 and 315). -/
def req_depth (max_depth depth : Nat) : Nat :=
  max 1 (min (max_depth - depth) 9)

/-- Depths at which a frontier item can be dequeued in a crawl with budget D:
    the top starts at 0, and a child of an item at depth d is enqueued at
    d + 1 only when d < D. -/
inductive DepthReachable (D : Nat) : Nat → Prop where
  | top : DepthReachable D 0
  | child : ∀ d, DepthReachable D d → d < D → DepthReachable D (d + 1)

/-
  Cache layer (transporter.py:106-164). Each cached getter is a pure function
  of the current cache entry, the offline flag and what the remote would
  return; the outcome records the returned value, the cache entry afterwards,
  whether the remote client was invoked, and the counter increments.
-/

/-- Observable outcome of one cached get. -/
structure GetOutcome where
  ret : Option Json
  cacheAfter : Option Json
  remoteCalled : Bool
  hitsDelta : Nat
  callsDelta : Nat

/-- Transporter._get_part_details_cached (transporter.py:106-119); the same
    shape embeds _get_bom_cached (121-134). A truthy cache entry is a hit;
    otherwise offline returns absent without touching the remote, online
    calls the remote and writes a truthy response through before returning. -/
def get_part_details_cached (cached : Option Json) (offline : Bool)
    (remote : Option Json) : GetOutcome :=
  if truthyOpt cached then ⟨cached, cached, false, 1, 0⟩
  else if offline then ⟨none, cached, false, 0, 0⟩
  else if truthyOpt remote then ⟨remote, remote, true, 0, 1⟩
  else ⟨none, cached, true, 0, 0⟩

/-- Transporter._get_details_by_id_cached (transporter.py:136-149): like the
    part getter but the remote result is call_tool(...) or call_tool(...). -/
def get_details_by_id_cached (cached : Option Json) (offline : Bool)
    (remote1 remote2 : Option Json) : GetOutcome :=
  if truthyOpt cached then ⟨cached, cached, false, 1, 0⟩
  else if offline then ⟨none, cached, false, 0, 0⟩
  else
    if truthyOpt (pyOr remote1 remote2) then
      ⟨pyOr remote1 remote2, pyOr remote1 remote2, true, 0, 1⟩
    else ⟨none, cached, true, 0, 0⟩

/-- The children enqueued by one number-path loop iteration of
    Transporter.collect (transporter.py:306-329), as a function of the
    fetched BOM: an already-seen part or a missing/falsy BOM enqueues
    nothing; otherwise, when req_levels is 1 and depth allows, each new child
    of the extracted edges is enqueued once at depth + 1. -/
def number_step_enqueues (partsKeys : List String) (pn : String)
    (depth max_depth : Nat) (bom : Option Json) : List (String × Nat) :=
  if partsKeys.contains pn then []
  else
    match bom with
    | none => []
    | some b =>
        if !(truthy b) then []
        else if req_depth max_depth depth ≤ 1 && depth < max_depth then
          ((extract_edges_generic b (some pn)).foldl
            (fun st e =>
              if st.1.contains e.2 then st
              else (e.2 :: st.1, st.2 ++ [(e.2, depth + 1)]))
            (pn :: partsKeys, [])).2
        else []

/-
  Bounded subgraph extraction (scripts/visualize_graph.py build_subgraph,
  lines 102-158, and build_subgraph_from_pairs, lines 161-190). Both run the
  same FIFO walk; they differ only in how the children adjacency is built
  (triples vs pairs). The walk is instrumented with the enqueue history so
  that "the depth at which a node is first reached" is a statement about the
  produced data; the history is exactly the root entry followed by every
  enqueued child entry, in order.
-/

/-- The children adjacency built from pair edges
    (visualize_graph.py:169-171): children in edge-list order. -/
def childrenMap (edges : List (String × String)) (x : String) : List String :=
  (edges.filter (fun e => e.1 == x)).map (fun e => e.2)

/-- The children adjacency built from (parent, child, level) triples
    (visualize_graph.py:125-127). -/
def childrenMapTriples (edges : List (String × String × Int)) (x : String) : List String :=
  (edges.filter (fun e => e.1 == x)).map (fun e => e.2.1)

/-- The depth-cut guard: max_depth is not None and depth >= max_depth. -/
def depthCut (mD : Option Nat) (depth : Nat) : Bool :=
  match mD with
  | some D => decide (D ≤ depth)
  | none => false

/-- The FIFO walk shared by build_subgraph and build_subgraph_from_pairs
    (visualize_graph.py:129-155 and 172-188): pop the front; skip visited
    nodes; label the node with the popped depth; unless max_depth cuts the
    branch, take the first max_children children, record their edges and
    enqueue them at depth + 1. Fuel only bounds the iteration count; the
    caller passes enough for the queue to drain. -/
def bfs_walk (children : String → List String) (maxDepth maxChildren : Option Nat) :
    Nat → List (String × Nat) → List String → List (String × Nat) →
    List (String × String) → List (String × Nat) →
    List (String × Nat) × List (String × String) × List (String × Nat)
  | 0, _, _, nodes, edgesOut, hist => (nodes, edgesOut, hist)
  | Nat.succ _, [], _, nodes, edgesOut, hist => (nodes, edgesOut, hist)
  | Nat.succ fuel, (part, depth) :: rest, visited, nodes, edgesOut, hist =>
      if visited.contains part then
        bfs_walk children maxDepth maxChildren fuel rest visited nodes edgesOut hist
      else
        let visited2 := part :: visited
        let nodes2 := nodes ++ [(part, depth)]
        if depthCut maxDepth depth then
          bfs_walk children maxDepth maxChildren fuel rest visited2 nodes2 edgesOut hist
        else
          let cut :=
            match maxChildren with
            | some m => (children part).take m
            | none => children part
          bfs_walk children maxDepth maxChildren fuel
            (rest ++ cut.map (fun ch => (ch, depth + 1))) visited2 nodes2
            (edgesOut ++ cut.map (fun ch => (part, ch)))
            (hist ++ cut.map (fun ch => (ch, depth + 1)))

/-- Iterations needed to drain the walk: one per initial entry plus one per
    enqueued child; at most edges-many children per expanded node and at most
    one expansion per distinct node. -/
def bfs_fuel (edgeCount : Nat) : Nat :=
  (edgeCount + 1) * (edgeCount + 1) + 1

/-- build_subgraph_from_pairs (visualize_graph.py:161-190): node labels,
    induced edges, and the reach history. -/
def build_subgraph_from_pairs (edges : List (String × String)) (root : String)
    (maxDepth maxChildren : Option Nat) :
    List (String × Nat) × List (String × String) × List (String × Nat) :=
  bfs_walk (childrenMap edges) maxDepth maxChildren (bfs_fuel edges.length)
    [(root, 0)] [] [] [] [(root, 0)]

/-- build_subgraph (visualize_graph.py:102-158), over level triples. -/
def build_subgraph (edges : List (String × String × Int)) (root : String)
    (maxDepth maxChildren : Option Nat) :
    List (String × Nat) × List (String × String) × List (String × Nat) :=
  bfs_walk (childrenMapTriples edges) maxDepth maxChildren (bfs_fuel edges.length)
    [(root, 0)] [] [] [] [(root, 0)]

/-- The depth attached to the first history entry for a node: the depth at
    which the walk first reached it. -/
def firstDepth (hist : List (String × Nat)) (n : String) : Option Nat :=
  (hist.find? (fun e => e.1 == n)).map (fun e => e.2)

/-
  Derived relationships (spreadsheet_loader.py build_used_in_triples, lines
  374-388, and build_part_of_assembly_triples, lines 391-435). The usedIn
  triples swap each edge; the partOfAssembly pairs are produced by a DFS with
  a shared visited set per root. The Python recursion terminates because
  visited grows; here the recursion carries fuel, and the callers pass
  |all_parts| + 1, which the fuel-sufficiency lemma below shows is enough for
  the cut-off branch never to matter. Sets are modelled as Finsets, the
  children adjacency reuses childrenMap (insertion order is irrelevant to the
  produced sets).
-/

/-- The node set of the edge list (all_parts,
    spreadsheet_loader.py:425-428). -/
def allParts (edges : List (String × String)) : Finset String :=
  (edges.map Prod.fst ++ edges.map Prod.snd).toFinset

/-- get_all_descendants (spreadsheet_loader.py:411-422): descendants
    accumulated via children plus recursion, with the visited set shared
    across the whole traversal; returns (descendants, visited). -/
def get_all_descendants (children : String → List String) :
    Nat → String → Finset String → Finset String × Finset String
  | 0, _, visited => (∅, visited)
  | Nat.succ fuel, part, visited =>
      if part ∈ visited then (∅, visited)
      else
        (children part).foldl
          (fun acc child =>
            let r := get_all_descendants children fuel child acc.2
            (insert child acc.1 ∪ r.1, r.2))
          (∅, insert part visited)

/-- Fuel sufficient for the shared-visited DFS: one unit per node that can
    ever be newly visited, plus one. -/
def dfs_fuel (edges : List (String × String)) : Nat :=
  (allParts edges).card + 1

/-- The descendant set of one part (get_all_descendants called with a fresh
    visited set, spreadsheet_loader.py:431). -/
def descendants (edges : List (String × String)) (part : String) : Finset String :=
  (get_all_descendants (childrenMap edges) (dfs_fuel edges) part ∅).1

/-- build_part_of_assembly_triples (spreadsheet_loader.py:391-435): for every
    part and every one of its descendants, the pair (descendant, ancestor). -/
def build_part_of_assembly_pairs (edges : List (String × String)) :
    Finset (String × String) :=
  (allParts edges).biUnion (fun a => (descendants edges a).image (fun d => (d, a)))

/-- build_used_in_triples (spreadsheet_loader.py:374-388): each edge
    reversed, child first. -/
def build_used_in_pairs (edges : List (String × String)) : List (String × String) :=
  edges.map (fun e => (e.2, e.1))

/-
  ===================== Lemmas and theorems =====================
-/

/-- The level stack after one more row, in closed form. -/
theorem levelStackAfter_append (pre : List (String × Int)) (r : String × Int) (l : Int) :
    levelStackAfter (pre ++ [r]) l =
      if r.2 < l then none
      else if l = r.2 then some r.1
      else levelStackAfter pre l := by
  simp only [levelStackAfter, List.foldl_append, List.foldl_cons, List.foldl_nil, convert_step]

/-- A key in the level stack always holds the most recently seen row at that
    level. -/
theorem levelStackAfter_lastAtLevel :
    ∀ (pre : List (String × Int)) (l : Int) (v : String),
      levelStackAfter pre l = some v → lastAtLevel pre l = some v := by
  intro pre
  induction pre using List.reverseRecOn with
  | nil => intro l v h; simp [levelStackAfter] at h
  | append_singleton pre r ih =>
      intro l v h
      rw [levelStackAfter_append] at h
      by_cases h1 : r.2 < l
      · simp [h1] at h
      · by_cases h2 : l = r.2
        · simp [h1, h2] at h
          subst h2
          simp [lastAtLevel, List.filter_append, h]
        · simp [h1, h2] at h
          have := ih l v h
          unfold lastAtLevel at this ⊢
          rw [List.filter_append, List.filter_cons]
          simpa [Ne.symm h2] using this

/-- Rows already processed are unaffected by appending a row. -/
theorem emittedAt_append_lt (pre : List (String × Int)) (r : String × Int) (i : Nat)
    (h : i < pre.length) : emittedAt (pre ++ [r]) i = emittedAt pre i := by
  unfold emittedAt
  rw [List.getElem?_append_left h, List.take_append_eq_append_take,
    Nat.sub_eq_zero_of_le (Nat.le_of_lt h), List.take_zero, List.append_nil]

/-- The contribution of the appended row in closed form. -/
theorem emittedAt_concat (pre : List (String × Int)) (r : String × Int) :
    emittedAt (pre ++ [r]) pre.length =
      if 0 < r.2 then (levelStackAfter pre (r.2 - 1)).map (fun p => (p, r.1)) else none := by
  unfold emittedAt
  rw [List.getElem?_concat_length, List.take_append_eq_append_take,
    Nat.sub_self, List.take_zero, List.append_nil, List.take_length]

/-- The converter's edge list grows by the appended row's contribution. -/
theorem convert_edges_append (pre : List (String × Int)) (r : String × Int) :
    (convert_hierarchical_to_parent_child (pre ++ [r])).1 =
      (convert_hierarchical_to_parent_child pre).1 ++
        (if 0 < r.2 then (levelStackAfter pre (r.2 - 1)).map (fun p => (p, r.1))
         else none).toList := by
  unfold convert_hierarchical_to_parent_child levelStackAfter
  rw [List.foldl_append]
  set S := List.foldl convert_step (fun _ => none, [], 0) pre with hS
  simp only [List.foldl_cons, List.foldl_nil, convert_step]
  by_cases h2 : (0 : Int) < r.2
  · have hne : ¬ (r.2 - 1 = r.2) := by omega
    simp only [h2, if_true, if_neg hne]
    cases h : S.1 (r.2 - 1) <;> simp [h]
  · simp [h2]

/-- The converter's edge list is exactly the concatenation of the per-row
    contributions: every row is processed, none aborts the parse. -/
theorem convert_edges_filterMap :
    ∀ rows : List (String × Int),
      (convert_hierarchical_to_parent_child rows).1 =
        (List.range rows.length).filterMap (emittedAt rows) := by
  intro rows
  induction rows using List.reverseRecOn with
  | nil => rfl
  | append_singleton pre r ih =>
      rw [convert_edges_append, ih, ← emittedAt_concat pre r, List.length_append,
        List.length_cons, List.length_nil, Nat.add_zero,
        List.range_succ, List.filterMap_append]
      congr 1
      exact (List.filterMap_congr (fun i hi => by
        exact (emittedAt_append_lt pre r i (List.mem_range.mp hi)).symm))

/-- The two hierarchical parsers keep identical stacks and emit identical
    edges (the visualizer's triples carry the level in addition). -/
theorem parse_convert_aux :
    ∀ (rows : List (String × Int))
      (sp : (Int → Option String) × List (String × String × Int) × Nat)
      (sc : (Int → Option String) × List (String × String) × Nat),
      sp.1 = sc.1 → sp.2.1.map (fun t => (t.1, t.2.1)) = sc.2.1 →
      (rows.foldl parse_hier_step sp).1 = (rows.foldl convert_step sc).1 ∧
      (rows.foldl parse_hier_step sp).2.1.map (fun t => (t.1, t.2.1)) =
        (rows.foldl convert_step sc).2.1 := by
  intro rows
  induction rows with
  | nil => intro sp sc h1 h2; exact ⟨h1, h2⟩
  | cons r rest ih =>
      intro sp sc h1 h2
      obtain ⟨pstk, pedges, pw⟩ := sp
      obtain ⟨cstk, cedges, cw⟩ := sc
      simp only at h1 h2
      subst h1
      simp only [List.foldl_cons]
      apply ih
      · simp only [parse_hier_step, convert_step]
      · simp only [parse_hier_step, convert_step]
        by_cases hl : (0 : Int) < r.2
        · simp only [hl, if_true]
          rcases hsc : (if r.2 - 1 = r.2 then some r.1 else pstk (r.2 - 1)) with _ | p <;>
            simp [hsc, h2]
        · simp [hl, h2]

/-- The visualizer's stack coincides with levelStackAfter. -/
theorem parse_stack_eq (rows : List (String × Int)) :
    (rows.foldl parse_hier_step (fun _ => none, [], 0)).1 = levelStackAfter rows :=
  (parse_convert_aux rows (fun _ => none, [], 0) (fun _ => none, [], 0) rfl rfl).1

/-- The visualizer's triples project to the converter's pairs. -/
theorem parse_edges_eq (rows : List (String × Int)) :
    (parse_hierarchical_bom rows).1.map (fun t => (t.1, t.2.1)) =
      (convert_hierarchical_to_parent_child rows).1 :=
  (parse_convert_aux rows (fun _ => none, [], 0) (fun _ => none, [], 0) rfl rfl).2

/-- Orphan status of already-processed rows is unaffected by appending. -/
theorem orphanAt_append_lt (pre : List (String × Int)) (r : String × Int) (i : Nat)
    (h : i < pre.length) : orphanAt (pre ++ [r]) i = orphanAt pre i := by
  unfold orphanAt
  rw [List.getElem?_append_left h, List.take_append_eq_append_take,
    Nat.sub_eq_zero_of_le (Nat.le_of_lt h), List.take_zero, List.append_nil]

/-- Orphan status of the appended row in closed form. -/
theorem orphanAt_concat (pre : List (String × Int)) (r : String × Int) :
    orphanAt (pre ++ [r]) pre.length =
      (decide (0 < r.2) && (levelStackAfter pre (r.2 - 1)).isNone) := by
  unfold orphanAt
  rw [List.getElem?_concat_length, List.take_append_eq_append_take,
    Nat.sub_self, List.take_zero, List.append_nil, List.take_length]

/-- The visualizer's warning count grows by one exactly on orphan rows. -/
theorem parse_warn_append (pre : List (String × Int)) (r : String × Int) :
    (parse_hierarchical_bom (pre ++ [r])).2 =
      (parse_hierarchical_bom pre).2 + (if orphanAt (pre ++ [r]) pre.length then 1 else 0) := by
  rw [orphanAt_concat]
  unfold parse_hierarchical_bom
  rw [List.foldl_append]
  set S := List.foldl parse_hier_step (fun _ => none, [], 0) pre with hS
  have hstack : S.1 = levelStackAfter pre := parse_stack_eq pre
  simp only [List.foldl_cons, List.foldl_nil, parse_hier_step]
  by_cases hl : (0 : Int) < r.2
  · have hne : ¬ (r.2 - 1 = r.2) := by omega
    simp only [hl, if_true, if_neg hne, decide_eq_true hl, Bool.true_and, hstack]
    cases h : levelStackAfter pre (r.2 - 1) <;> simp [h]
  · simp [hl]

/-- The visualizer's warning count equals the number of orphan rows. -/
theorem parse_warnings (rows : List (String × Int)) :
    (parse_hierarchical_bom rows).2 =
      ((List.range rows.length).filter (orphanAt rows)).length := by
  induction rows using List.reverseRecOn with
  | nil => rfl
  | append_singleton pre r ih =>
      rw [parse_warn_append, ih, List.length_append, List.length_cons, List.length_nil,
        Nat.add_zero, List.range_succ, List.filter_append]
      have hcongr : (List.range pre.length).filter (orphanAt (pre ++ [r])) =
          (List.range pre.length).filter (orphanAt pre) := by
        apply List.filter_congr
        intro i hi
        rw [orphanAt_append_lt pre r i (List.mem_range.mp hi)]
      rw [List.length_append, hcongr]
      by_cases h : orphanAt (pre ++ [r]) pre.length <;> simp [h]

/-- The converter never logs a warning: no loop branch touches the counter. -/
theorem convert_warn_zero :
    ∀ (rows : List (String × Int))
      (sc : (Int → Option String) × List (String × String) × Nat),
      (rows.foldl convert_step sc).2.2 = sc.2.2 := by
  intro rows
  induction rows with
  | nil => intro sc; rfl
  | cons r rest ih =>
      intro sc
      rw [List.foldl_cons, ih]
      simp only [convert_step]
      by_cases hl : (0 : Int) < r.2
      · simp only [hl, if_true]
        rcases (if r.2 - 1 = r.2 then some r.1 else sc.1 (r.2 - 1)) with _ | p <;> rfl
      · simp [hl]

/-- C2: on rows (R,0),(A,1),(B,2),(C,1),(D,2) both level-indexed parsers
    produce exactly the edges (R,A),(A,B),(R,C),(C,D); in general the edge
    list is the concatenation of per-row contributions, the parent emitted
    for a row at level L > 0 is the most recently seen row at level L-1, and
    all stack entries for levels greater than L are discarded when a row at
    level L is processed. -/
theorem c2_level_stack_parsing :
    (convert_hierarchical_to_parent_child
        [("R", 0), ("A", 1), ("B", 2), ("C", 1), ("D", 2)]).1 =
      [("R", "A"), ("A", "B"), ("R", "C"), ("C", "D")] ∧
    (parse_hierarchical_bom
        [("R", 0), ("A", 1), ("B", 2), ("C", 1), ("D", 2)]).1 =
      [("R", "A", 1), ("A", "B", 2), ("R", "C", 1), ("C", "D", 2)] ∧
    (∀ rows : List (String × Int),
      (convert_hierarchical_to_parent_child rows).1 =
        (List.range rows.length).filterMap (emittedAt rows)) ∧
    (∀ rows : List (String × Int),
      (parse_hierarchical_bom rows).1.map (fun t => (t.1, t.2.1)) =
        (convert_hierarchical_to_parent_child rows).1) ∧
    (∀ (rows : List (String × Int)) (i : Nat) (part : String) (level : Int)
        (parent child : String),
      rows[i]? = some (part, level) → 0 < level →
      emittedAt rows i = some (parent, child) →
      child = part ∧ lastAtLevel (rows.take i) (level - 1) = some parent) ∧
    (∀ (pre : List (String × Int)) (r : String × Int) (l : Int),
      r.2 < l → levelStackAfter (pre ++ [r]) l = none) := by
  refine ⟨by decide, by decide, convert_edges_filterMap, parse_edges_eq, ?_, ?_⟩
  · intro rows i part level parent child hget hpos hemit
    unfold emittedAt at hemit
    rw [hget] at hemit
    simp only [hpos, if_true] at hemit
    cases hst : levelStackAfter (rows.take i) (level - 1) with
    | none => rw [hst] at hemit; simp at hemit
    | some p =>
        rw [hst] at hemit
        have hemit2 : some (p, part) = some (parent, child) := hemit
        injection hemit2 with hpair
        injection hpair with ha hb
        constructor
        · exact hb.symm
        · rw [← ha]; exact levelStackAfter_lastAtLevel (rows.take i) (level - 1) p hst
  · intro pre r l hl
    rw [levelStackAfter_append]
    simp [hl]

/-- Witness for c2_level_stack_parsing: row 3 of the spec example is (C,1);
    its emitted parent is R, the most recent earlier row at level 0. -/
theorem c2_level_stack_parsing_witness :
    "C" = "C" ∧
      lastAtLevel ([("R", (0 : Int)), ("A", 1), ("B", 2), ("C", 1), ("D", 2)].take 3)
        (1 - 1) = some "R" :=
  c2_level_stack_parsing.2.2.2.2.1
    [("R", 0), ("A", 1), ("B", 2), ("C", 1), ("D", 2)] 3 "C" 1 "R" "C"
    (by decide) (by decide) (by decide)

/-- C9 counterexample: for the single-row input (A,1) — a level-1 row with no
    level-0 ancestor — the converter emits no edge and logs NO warning (its
    loop has no logging call), while the claim asserts a warning is logged in
    both level-indexed parsers; the visualizer's parser does log one. -/
theorem c9_counterexample :
    (convert_hierarchical_to_parent_child [("A", 1)]).1 = [] ∧
    (convert_hierarchical_to_parent_child [("A", 1)]).2 = 0 ∧
    (parse_hierarchical_bom [("A", 1)]).2 = 1 := by
  exact ⟨rfl, rfl, rfl⟩

/-- C9 (amended): a row at level L > 0 with no level L-1 entry contributes no
    edge and the parse continues over the remaining rows; the visualizer's
    parser logs exactly one warning per such row, while the converter skips
    it silently (zero warnings ever). -/
theorem c9_orphan_row_handling :
    (∀ (rows : List (String × Int)) (i : Nat),
      orphanAt rows i = true → emittedAt rows i = none) ∧
    (∀ rows : List (String × Int),
      (parse_hierarchical_bom rows).2 =
        ((List.range rows.length).filter (orphanAt rows)).length) ∧
    (∀ rows : List (String × Int), (convert_hierarchical_to_parent_child rows).2 = 0) ∧
    (∀ rows : List (String × Int),
      (parse_hierarchical_bom rows).1.map (fun t => (t.1, t.2.1)) =
        (List.range rows.length).filterMap (emittedAt rows)) := by
  refine ⟨?_, parse_warnings, ?_, ?_⟩
  · intro rows i horb
    unfold orphanAt at horb
    unfold emittedAt
    cases hget : rows[i]? with
    | none => rfl
    | some rw0 =>
        rw [hget] at horb
        obtain ⟨hpos, hnone⟩ := Bool.and_eq_true_iff.mp horb
        simp only [decide_eq_true_eq] at hpos
        simp only [hpos, if_true]
        rw [Option.isNone_iff_eq_none.mp hnone]
        rfl
  · intro rows
    exact convert_warn_zero rows (fun _ => none, [], 0)
  · intro rows
    rw [parse_edges_eq, convert_edges_filterMap]

/-- Witness for c9_orphan_row_handling: the single orphan row (A,1)
    contributes no edge. -/
theorem c9_orphan_row_handling_witness :
    orphanAt [("A", (1 : Int))] 0 = true ∧ emittedAt [("A", (1 : Int))] 0 = none :=
  ⟨by decide, c9_orphan_row_handling.1 [("A", 1)] 0 (by decide)⟩

/-- Membership in a fold that appends a chunk per element. -/
theorem mem_foldl_append {α β : Type} (f : β → List α) :
    ∀ (l : List β) (init : List α) (x : α),
      (x ∈ l.foldl (fun acc it => acc ++ f it) init ↔
        x ∈ init ∨ ∃ it, it ∈ l ∧ x ∈ f it) := by
  intro l
  induction l with
  | nil => intro init x; simp
  | cons b rest ih =>
      intro init x
      rw [List.foldl_cons, ih]
      simp only [List.mem_append, List.mem_cons]
      constructor
      · rintro ((h | h) | ⟨it, hit, hx⟩)
        · exact Or.inl h
        · exact Or.inr ⟨b, Or.inl rfl, h⟩
        · exact Or.inr ⟨it, Or.inr hit, hx⟩
      · rintro (h | ⟨it, (rfl | hit), hx⟩)
        · exact Or.inl (Or.inl h)
        · exact Or.inl (Or.inr hx)
        · exact Or.inr ⟨it, hit, hx⟩

/-- Elements surviving dedupAux come from the input list. -/
theorem dedupAux_subset :
    ∀ (l seen : List (String × String)) (x : String × String),
      x ∈ dedupAux l seen → x ∈ l := by
  intro l
  induction l with
  | nil => intro seen x h; simp [dedupAux] at h
  | cons e rest ih =>
      intro seen x h
      unfold dedupAux at h
      by_cases he : e ∈ seen
      · simp only [if_pos he] at h
        exact List.mem_cons_of_mem e (ih seen x h)
      · simp only [if_neg he, List.mem_cons] at h
        rcases h with rfl | h
        · exact List.mem_cons_self _ _
        · exact List.mem_cons_of_mem e (ih (e :: seen) x h)

/-- Elements surviving dedupAux are not among the already-seen ones. -/
theorem dedupAux_not_seen :
    ∀ (l seen : List (String × String)) (x : String × String),
      x ∈ dedupAux l seen → x ∉ seen := by
  intro l
  induction l with
  | nil => intro seen x h; simp [dedupAux] at h
  | cons e rest ih =>
      intro seen x h
      unfold dedupAux at h
      by_cases he : e ∈ seen
      · simp only [if_pos he] at h
        exact ih seen x h
      · simp only [if_neg he, List.mem_cons] at h
        rcases h with rfl | h
        · exact he
        · intro hx
          exact ih (e :: seen) x h (List.mem_cons_of_mem e hx)

/-- dedupAux produces a duplicate-free list. -/
theorem dedupAux_nodup :
    ∀ (l seen : List (String × String)), (dedupAux l seen).Nodup := by
  intro l
  induction l with
  | nil => intro seen; simp [dedupAux]
  | cons e rest ih =>
      intro seen
      unfold dedupAux
      by_cases he : e ∈ seen
      · simp only [if_pos he]
        exact ih seen
      · simp only [if_neg he]
        refine List.nodup_cons.mpr ⟨?_, ih (e :: seen)⟩
        intro hmem
        exact dedupAux_not_seen rest (e :: seen) e hmem (List.mem_cons_self _ _)

/-- Under string-valued number fields, the walk never emits a self-loop. -/
theorem walk_no_selfloop :
    ∀ (fuel : Nat) (j : Json) (parent : Option String) (p : String),
      StrNumbered j → (p, p) ∉ walk fuel j parent := by
  intro fuel
  induction fuel with
  | zero => intro j parent p _ h; simp [walk] at h
  | succ fuel ih =>
      intro j parent p hS hmem
      cases hS with
      | null => simp [walk] at hmem
      | bool b => simp [walk] at hmem
      | num n => simp [walk] at hmem
      | str s => simp [walk] at hmem
      | arr l hall =>
          simp only [walk] at hmem
          rcases (mem_foldl_append _ _ _ _).mp hmem with h | ⟨it, hit, hw⟩
          · simp at h
          · exact ih it parent p (hall it hit) hw
      | obj fields hfields hnum =>
          simp only [walk] at hmem
          rw [List.mem_append, List.mem_append] at hmem
          rcases hmem with (hedge | hcand) | hitem
          · -- the locally emitted edge is not a self-loop
            by_cases hc : emitCond parent (numField fields) = true
            · rw [if_pos hc] at hedge
              cases hpar : parent with
              | none => rw [hpar] at hc; simp [emitCond, parentTruthy] at hc
              | some p0 =>
                  cases hn : numField fields with
                  | none => rw [hpar, hn] at hc; simp [emitCond, truthyOpt] at hc
                  | some n =>
                      rw [hpar, hn] at hedge hc
                      simp only [List.mem_singleton] at hedge
                      have hp0 : p = p0 := congrArg Prod.fst hedge
                      have hpn : p = pyStr n := congrArg Prod.snd hedge
                      unfold emitCond at hc
                      rw [Bool.and_eq_true, Bool.and_eq_true] at hc
                      obtain ⟨⟨-, htr⟩, hne⟩ := hc
                      obtain ⟨s, rfl⟩ := hnum n hn (by simpa [truthyOpt] using htr)
                      have hsp : p = s := hpn
                      rw [numNeqParent, pyEqStr] at hne
                      rw [← hsp, ← hp0] at hne
                      simp at hne
            · rw [if_neg hc] at hedge
              simp at hedge
          · -- edges found under the explicit children-alias arrays
            rcases (mem_foldl_append _ _ _ _).mp hcand with h | ⟨arr, harr, hx⟩
            · simp at h
            · rcases (mem_foldl_append _ _ _ _).mp hx with h | ⟨ch, hch, hw⟩
              · simp at h
              · -- arr is the value of some fields key, hence StrNumbered
                rcases (mem_foldl_append _ _ _ _).mp harr with h | ⟨k, -, hk⟩
                · simp at h
                · cases hg : jget fields k with
                  | none => rw [hg] at hk; simp at hk
                  | some v =>
                      cases v with
                      | arr l =>
                          rw [hg] at hk
                          by_cases hne : l.isEmpty
                          · simp [hne] at hk
                          · simp only [hne, Bool.not_false, if_pos, List.mem_singleton] at hk
                            subst hk
                            obtain ⟨q, hq, hq2⟩ :
                                ∃ q, q ∈ fields ∧ q.2 = Json.arr arr := by
                              unfold jget at hg
                              cases hf : fields.find? (fun p => p.1 == k) with
                              | none => rw [hf] at hg; simp at hg
                              | some q =>
                                  rw [hf] at hg
                                  simp only [Option.map_some'] at hg
                                  exact ⟨q, List.mem_of_find?_eq_some hf,
                                    by injection hg⟩
                            have hsq := hfields q hq
                            rw [hq2] at hsq
                            cases hsq with
                            | arr l2 hall2 => exact ih ch _ p (hall2 ch hch) hw
                      | null => rw [hg] at hk; simp at hk
                      | bool b => rw [hg] at hk; simp at hk
                      | num n => rw [hg] at hk; simp at hk
                      | str s => rw [hg] at hk; simp at hk
                      | obj l => rw [hg] at hk; simp at hk
          · -- edges found by recursing into every dict- or list-valued field
            rcases (mem_foldl_append _ _ _ _).mp hitem with h | ⟨kv, hkv, hw⟩
            · simp at h
            · have hskv := hfields kv hkv
              cases hv : kv.2 with
              | obj l => rw [hv] at hw hskv; exact ih _ _ p hskv hw
              | arr l => rw [hv] at hw hskv; exact ih _ _ p hskv hw
              | null => rw [hv] at hw; simp at hw
              | bool b => rw [hv] at hw; simp at hw
              | num n => rw [hv] at hw; simp at hw
              | str s => rw [hv] at hw; simp at hw

/-- parse_bom_csv appends (or skips) one pair per row. -/
theorem parse_bom_csv_append (rows : List (Option Json × Option Json))
    (r : Option Json × Option Json) :
    parse_bom_csv (rows ++ [r]) =
      parse_bom_csv rows ++
        (if normalize_part_number r.1 ≠ "" ∧ normalize_part_number r.2 ≠ "" then
          [(normalize_part_number r.1, normalize_part_number r.2)]
         else []) := by
  unfold parse_bom_csv
  rw [List.foldl_append]
  simp only [List.foldl_cons, List.foldl_nil]
  by_cases h : (normalize_part_number r.1 ≠ "" ∧ normalize_part_number r.2 ≠ "") <;>
    simp [h]

/-- On rows of non-empty strings, parse_bom_csv returns the rows verbatim:
    duplicates and self-loops included. -/
theorem parse_bom_csv_of_strings :
    ∀ rows : List (String × String),
      (∀ r ∈ rows, r.1 ≠ "" ∧ r.2 ≠ "") →
      parse_bom_csv (rows.map (fun r => (some (Json.str r.1), some (Json.str r.2)))) =
        rows := by
  intro rows
  induction rows using List.reverseRecOn with
  | nil => intro _; rfl
  | append_singleton pre r ih =>
      intro hall
      rw [List.map_append]
      simp only [List.map_cons, List.map_nil]
      rw [parse_bom_csv_append]
      have h1 := hall r (by simp)
      have hpre : ∀ q ∈ pre, q.1 ≠ "" ∧ q.2 ≠ "" := fun q hq => hall q (by simp [hq])
      rw [ih hpre]
      have hc : normalize_part_number (some (Json.str r.1)) ≠ "" ∧
          normalize_part_number (some (Json.str r.2)) ≠ "" := by
        exact ⟨h1.1, h1.2⟩
      rw [if_pos hc]
      show pre ++ [(r.1, r.2)] = pre ++ [r]
      rw [Prod.mk.eta]

/-- C1 counterexample: the tabular BOM parser keeps a self-loop row (X,X) and
    both copies of a duplicated row, and the flattener itself emits a
    self-loop when the number field is the integer 5 under parent "5". -/
theorem c1_counterexample :
    parse_bom_csv [(some (Json.str "X"), some (Json.str "X")),
        (some (Json.str "P"), some (Json.str "C")),
        (some (Json.str "P"), some (Json.str "C"))] =
      [("X", "X"), ("P", "C"), ("P", "C")] ∧
    extract_edges_generic (Json.obj [("Number", Json.num 5)]) (some "5") = [("5", "5")] :=
  ⟨rfl, rfl⟩

/-- C1 (amended): the crawler's structure flattener emits each (parent,
    child) pair at most once (duplicate discovery is idempotent) and, as long
    as every number-like field it meets is a string, never emits a pair with
    parent equal to child; the tabular parse_bom_csv applies neither
    deduplication nor self-loop rejection — it reproduces its rows verbatim. -/
theorem c1_dedup_selfloop_amended :
    (∀ (sj : Json) (parent : Option String), (extract_edges_generic sj parent).Nodup) ∧
    (∀ (sj : Json) (parent : Option String) (p : String),
      StrNumbered sj → (p, p) ∉ extract_edges_generic sj parent) ∧
    (∀ rows : List (String × String),
      (∀ r ∈ rows, r.1 ≠ "" ∧ r.2 ≠ "") →
      parse_bom_csv (rows.map (fun r => (some (Json.str r.1), some (Json.str r.2)))) =
        rows) := by
  refine ⟨?_, ?_, parse_bom_csv_of_strings⟩
  · intro sj parent
    exact dedupAux_nodup _ _
  · intro sj parent p hS hmem
    exact walk_no_selfloop _ sj parent p hS (dedupAux_subset _ _ _ hmem)

/-- Witness for c1_dedup_selfloop_amended: a string-numbered node equal to
    its parent yields no self-loop, and a plain two-string row is kept. -/
theorem c1_dedup_selfloop_amended_witness :
    (("P", "P") ∉ extract_edges_generic (Json.obj [("Number", Json.str "P")]) (some "P")) ∧
    parse_bom_csv [(some (Json.str "A"), some (Json.str "B"))] = [("A", "B")] := by
  constructor
  · apply c1_dedup_selfloop_amended.2.1
    refine StrNumbered.obj _ ?_ ?_
    · intro q hq
      simp only [List.mem_singleton] at hq
      rw [hq]
      exact StrNumbered.str _
    · intro n hn _
      have hv : numField [("Number", Json.str "P")] = some (Json.str "P") := rfl
      rw [hv] at hn
      injection hn with h
      exact ⟨"P", h.symm⟩
  · have h := c1_dedup_selfloop_amended.2.2 [("A", "B")] (by decide)
    simpa using h

/-- A non-empty existing value survives the fill-gaps rule. -/
theorem fillField_preserve (s : String) (hs : s ≠ "") (v : Option String) :
    fillField (some s) v = some s := by
  cases v with
  | none => rfl
  | some t => simp [fillField, hs]

/-- A non-empty existing field survives one fill-gaps merge. -/
theorem mergeInto_preserve (d frag : PartDetails) (f : PartField) (s : String)
    (hf : getF f d = some s) (hs : s ≠ "") :
    getF f (mergeInto d frag) = some s := by
  cases f <;> simp only [getF] at hf ⊢ <;> rw [mergeInto] <;> simp only [] <;>
    rw [hf, fillField_preserve s hs]

/-- mergeEntry on a cons, in closed form. -/
theorem mergeEntry_cons (p : Json × PartDetails) (rest : List (Json × PartDetails))
    (k : Json) (frag : PartDetails) :
    mergeEntry (p :: rest) k frag =
      if jbeq p.1 k then (p.1, mergeInto p.2 frag) :: rest
      else p :: mergeEntry rest k frag := by
  by_cases hb : jbeq p.1 k <;>
    simp [mergeEntry, lookupKey, setKey, List.find?_cons, hb]

/-- Updating any key never clobbers a non-empty field of any record. -/
theorem mergeEntry_preserve :
    ∀ (parts : List (Json × PartDetails)) (k2 : Json) (frag : PartDetails)
      (k : Json) (r0 : PartDetails) (f : PartField) (s : String),
      lookupKey parts k = some r0 → getF f r0 = some s → s ≠ "" →
      ∃ r2, lookupKey (mergeEntry parts k2 frag) k = some r2 ∧ getF f r2 = some s := by
  intro parts
  induction parts with
  | nil => intro k2 frag k r0 f s h _ _; simp [lookupKey] at h
  | cons p rest ih =>
      intro k2 frag k r0 f s hl hf hs
      rw [mergeEntry_cons]
      unfold lookupKey at hl
      by_cases hbk : jbeq p.1 k
      · rw [@List.find?_cons_of_pos _ (fun q => jbeq q.1 k) p rest hbk] at hl
        simp only [Option.map_some'] at hl
        injection hl with hr0
        by_cases hb2 : jbeq p.1 k2
        · rw [if_pos hb2]
          refine ⟨mergeInto p.2 frag, ?_, ?_⟩
          · unfold lookupKey
            rw [@List.find?_cons_of_pos _ (fun q => jbeq q.1 k)
              (p.1, mergeInto p.2 frag) rest hbk]
            rfl
          · exact mergeInto_preserve p.2 frag f s (by rw [hr0]; exact hf) hs
        · rw [if_neg hb2]
          refine ⟨r0, ?_, hf⟩
          unfold lookupKey
          rw [@List.find?_cons_of_pos _ (fun q => jbeq q.1 k) p (mergeEntry rest k2 frag) hbk]
          simp [hr0]
      · rw [@List.find?_cons_of_neg _ (fun q => jbeq q.1 k) p rest hbk] at hl
        by_cases hb2 : jbeq p.1 k2
        · rw [if_pos hb2]
          refine ⟨r0, ?_, hf⟩
          unfold lookupKey
          rw [@List.find?_cons_of_neg _ (fun q => jbeq q.1 k)
            (p.1, mergeInto p.2 frag) rest hbk]
          exact hl
        · rw [if_neg hb2]
          obtain ⟨r2, h1, h2⟩ := ih k2 frag k r0 f s hl hf hs
          refine ⟨r2, ?_, h2⟩
          unfold lookupKey
          rw [@List.find?_cons_of_neg _ (fun q => jbeq q.1 k) p (mergeEntry rest k2 frag) hbk]
          exact h1

/-- The component loop of the merge preserves non-empty fields. -/
theorem mergefold_preserve :
    ∀ (comps : List Json) (parts : List (Json × PartDetails))
      (k : Json) (r0 : PartDetails) (f : PartField) (s : String),
      lookupKey parts k = some r0 → getF f r0 = some s → s ≠ "" →
      ∃ r2,
        lookupKey
          (comps.foldl
            (fun acc c =>
              match c with
              | Json.obj cf =>
                  match get_num cf with
                  | some n =>
                      if truthy n then
                        mergeEntry acc n (normalize_part_details (details_from_obj cf))
                      else acc
                  | none => acc
              | _ => acc)
            parts) k = some r2 ∧ getF f r2 = some s := by
  intro comps
  induction comps with
  | nil => intro parts k r0 f s h1 h2 _; exact ⟨r0, h1, h2⟩
  | cons c cs ih =>
      intro parts k r0 f s h1 h2 hs
      rw [List.foldl_cons]
      cases c with
      | obj cf =>
          cases hg : get_num cf with
          | some n =>
              by_cases ht : truthy n
              · simp only [hg, ht, if_true]
                obtain ⟨r1, hh1, hh2⟩ :=
                  mergeEntry_preserve parts n
                    (normalize_part_details (details_from_obj cf)) k r0 f s h1 h2 hs
                exact ih _ k r1 f s hh1 hh2 hs
              · simp only [hg, Bool.not_eq_true] at ht
                simp only [hg, ht, if_false]
                exact ih _ k r0 f s h1 h2 hs
          | none =>
              simp only [hg]
              exact ih _ k r0 f s h1 h2 hs
      | null => exact ih _ k r0 f s h1 h2 hs
      | bool b => exact ih _ k r0 f s h1 h2 hs
      | num n => exact ih _ k r0 f s h1 h2 hs
      | str t => exact ih _ k r0 f s h1 h2 hs
      | arr l => exact ih _ k r0 f s h1 h2 hs

/-- C4 counterexample: a record whose name is the empty string — produced by
    normalizing raw details with an empty name, as the crawler caches them —
    holds a non-null value, yet one merge of a fragment carrying a name
    replaces it. -/
theorem c4_counterexample :
    (normalize_part_details [("name", Json.str "")]).name = some "" ∧
    (lookupKey
        (merge_part_details_from_struct
          [("Number", Json.str "P"), ("Name", Json.str "X")]
          [(Json.str "P", normalize_part_details [("name", Json.str "")])])
        (Json.str "P")).map PartDetails.name = some (some "X") :=
  ⟨rfl, rfl⟩

/-- C4 (amended): the metadata merge fills a field only when it is absent,
    None or the empty string — a non-empty existing value is never replaced
    (Python truthiness makes the empty string count as unset) — and on the
    spec's example fragments (name Bracket / state RELEASED) the final record
    is name Bracket, state RELEASED in either merge order. -/
theorem c4_fill_only_gaps_amended :
    (∀ (struct : List (String × Json)) (parts : List (Json × PartDetails))
        (k : Json) (r0 : PartDetails) (f : PartField) (s : String),
      lookupKey parts k = some r0 → getF f r0 = some s → s ≠ "" →
      ∃ r2, lookupKey (merge_part_details_from_struct struct parts) k = some r2 ∧
        getF f r2 = some s) ∧
    lookupKey
        (merge_part_details_from_struct [("Number", Json.str "P"), ("State", Json.str "RELEASED")]
          (merge_part_details_from_struct [("Number", Json.str "P"), ("Name", Json.str "Bracket")] []))
        (Json.str "P") =
      some ⟨some "Bracket", none, none, some "RELEASED", none, none, none⟩ ∧
    lookupKey
        (merge_part_details_from_struct [("Number", Json.str "P"), ("Name", Json.str "Bracket")]
          (merge_part_details_from_struct [("Number", Json.str "P"), ("State", Json.str "RELEASED")] []))
        (Json.str "P") =
      some ⟨some "Bracket", none, none, some "RELEASED", none, none, none⟩ := by
  refine ⟨?_, rfl, rfl⟩
  intro struct parts k r0 f s h1 h2 hs
  unfold merge_part_details_from_struct
  cases hg : get_num struct with
  | some n =>
      by_cases ht : truthy n
      · simp only [hg, ht, if_true]
        obtain ⟨r1, hh1, hh2⟩ :=
          mergeEntry_preserve parts n
            (normalize_part_details (details_from_obj struct)) k r0 f s h1 h2 hs
        exact mergefold_preserve _ _ k r1 f s hh1 hh2 hs
      · simp only [Bool.not_eq_true] at ht
        simp only [hg, ht, if_false]
        exact mergefold_preserve _ _ k r0 f s h1 h2 hs
  | none =>
      simp only [hg]
      exact mergefold_preserve _ _ k r0 f s h1 h2 hs

/-- Witness for c4_fill_only_gaps_amended: merging a fragment with name X
    into a record whose name is already the non-empty N keeps N. -/
theorem c4_fill_only_gaps_amended_witness :
    ∃ r2,
      lookupKey
        (merge_part_details_from_struct [("Number", Json.str "P"), ("Name", Json.str "X")]
          [(Json.str "P", ⟨some "N", none, none, none, none, none, none⟩)])
        (Json.str "P") = some r2 ∧
      getF PartField.name r2 = some "N" :=
  c4_fill_only_gaps_amended.1 [("Number", Json.str "P"), ("Name", Json.str "X")]
    [(Json.str "P", ⟨some "N", none, none, none, none, none, none⟩)]
    (Json.str "P") ⟨some "N", none, none, none, none, none, none⟩
    PartField.name "N" (by rfl) (by rfl) (by decide)

/-- With no parts map the fallback is inert. -/
theorem effCandidates_none (ntp : String → List String) (key : String) :
    effCandidates ntp none key = ntp key := by
  simp [effCandidates, partsTruthy]

/-- An empty candidate list on either side makes the row bad. -/
theorem rowGood_false_of_empty (ntp : String → List String)
    (parts : Option (List String)) (row : String × String)
    (h : ((effCandidates ntp parts (pyStrip row.1)).isEmpty ||
      (effCandidates ntp parts (pyStrip row.2)).isEmpty) = true) :
    rowGood ntp parts row = false := by
  rw [Bool.or_eq_true] at h
  rcases h with h1 | h1
  · have he : effCandidates ntp parts (pyStrip row.1) = [] := List.isEmpty_iff.mp h1
    simp [rowGood, he]
  · have he : effCandidates ntp parts (pyStrip row.2) = [] := List.isEmpty_iff.mp h1
    simp [rowGood, he]

/-- A side with a non-single candidate list makes the row bad. -/
theorem rowGood_false_of_multi (ntp : String → List String)
    (parts : Option (List String)) (row : String × String)
    (h : ((effCandidates ntp parts (pyStrip row.1)).length != 1 ||
      (effCandidates ntp parts (pyStrip row.2)).length != 1) = true) :
    rowGood ntp parts row = false := by
  rw [Bool.or_eq_true] at h
  rcases h with h1 | h1 <;>
    simp only [bne_iff_ne, ne_eq] at h1 <;> simp [rowGood, h1]

/-- The lenient step in terms of row classification. -/
theorem rebn_step_lenient (ntp : String → List String) (parts : Option (List String))
    (row : String × String) (resolved : List (String × String)) (skipped : Nat) :
    rebn_step ntp false parts (Except.ok (resolved, skipped)) row =
      (if rowGood ntp parts row then
        Except.ok (resolved ++ [pickRow ntp parts row], skipped)
       else Except.ok (resolved, skipped + 1)) := by
  simp only [rebn_step]
  by_cases h1 : ((effCandidates ntp parts (pyStrip row.1)).isEmpty ||
      (effCandidates ntp parts (pyStrip row.2)).isEmpty) = true
  · have hg := rowGood_false_of_empty ntp parts row h1
    rw [if_pos h1, hg]
    simp
  · rw [if_neg h1]
    by_cases h2 : ((effCandidates ntp parts (pyStrip row.1)).length != 1 ||
        (effCandidates ntp parts (pyStrip row.2)).length != 1) = true
    · have hg := rowGood_false_of_multi ntp parts row h2
      rw [if_pos h2, hg]
      simp
    · rw [if_neg h2]
      have hg : rowGood ntp parts row = true := by
        simp only [Bool.or_eq_true, not_or, bne_iff_ne, ne_eq, not_not] at h2
        simp [rowGood, h2.1, h2.2]
      rw [hg]
      simp [pickRow]

/-- The strict step on a good row appends its edge. -/
theorem rebn_step_strict_good (ntp : String → List String) (parts : Option (List String))
    (row : String × String) (resolved : List (String × String)) (skipped : Nat)
    (hg : rowGood ntp parts row = true) :
    rebn_step ntp true parts (Except.ok (resolved, skipped)) row =
      Except.ok (resolved ++ [pickRow ntp parts row], skipped) := by
  simp only [rowGood, Bool.and_eq_true, beq_iff_eq] at hg
  have hne1 : (effCandidates ntp parts (pyStrip row.1)).isEmpty = false := by
    cases he : effCandidates ntp parts (pyStrip row.1) with
    | nil => rw [he] at hg; simp at hg
    | cons a l => rfl
  have hne2 : (effCandidates ntp parts (pyStrip row.2)).isEmpty = false := by
    cases he : effCandidates ntp parts (pyStrip row.2) with
    | nil => rw [he] at hg; simp at hg
    | cons a l => rfl
  simp only [rebn_step, hne1, hne2, Bool.or_self, Bool.false_eq_true, if_false,
    hg.1, hg.2, bne_self_eq_false, Bool.or_false]
  rfl

/-- The strict step on a bad row raises. -/
theorem rebn_step_strict_bad (ntp : String → List String) (parts : Option (List String))
    (row : String × String) (resolved : List (String × String)) (skipped : Nat)
    (hg : rowGood ntp parts row = false) :
    ∃ e, rebn_step ntp true parts (Except.ok (resolved, skipped)) row =
      Except.error e := by
  simp only [rebn_step]
  by_cases h1 : ((effCandidates ntp parts (pyStrip row.1)).isEmpty ||
      (effCandidates ntp parts (pyStrip row.2)).isEmpty) = true
  · rw [if_pos h1]
    exact ⟨_, rfl⟩
  · rw [if_neg h1]
    by_cases h2 : ((effCandidates ntp parts (pyStrip row.1)).length != 1 ||
        (effCandidates ntp parts (pyStrip row.2)).length != 1) = true
    · rw [if_pos h2]
      exact ⟨_, rfl⟩
    · exfalso
      have hgt : rowGood ntp parts row = true := by
        simp only [Bool.or_eq_true, not_or, bne_iff_ne, ne_eq, not_not] at h2
        simp [rowGood, h2.1, h2.2]
      rw [hgt] at hg
      simp at hg

/-- A raised resolution error is final. -/
theorem rebn_error_absorb :
    ∀ (edges : List (String × String)) (ntp : String → List String) (strict : Bool)
      (parts : Option (List String)) (e : String),
      edges.foldl (rebn_step ntp strict parts) (Except.error e) = Except.error e := by
  intro edges ntp strict parts e
  induction edges with
  | nil => rfl
  | cons row rest ih => rw [List.foldl_cons]; exact ih

/-- Lenient resolution in closed form: one edge per good row, one skip per
    bad row, no guessed candidates. -/
theorem rebn_lenient_char :
    ∀ (edges : List (String × String)) (ntp : String → List String)
      (parts : Option (List String)) (resolved : List (String × String)) (skipped : Nat),
      edges.foldl (rebn_step ntp false parts) (Except.ok (resolved, skipped)) =
        Except.ok (resolved ++ (edges.filter (rowGood ntp parts)).map (pickRow ntp parts),
          skipped + edges.countP (fun r => !(rowGood ntp parts r))) := by
  intro edges
  induction edges with
  | nil => intro ntp parts resolved skipped; simp
  | cons row rest ih =>
      intro ntp parts resolved skipped
      rw [List.foldl_cons, rebn_step_lenient]
      by_cases hg : rowGood ntp parts row = true
      · rw [if_pos hg, ih, List.filter_cons, List.countP_cons]
        simp [hg]
      · rw [if_neg hg, ih, List.filter_cons, List.countP_cons]
        rw [Bool.not_eq_true] at hg
        simp [hg]
        omega

/-- Strict resolution over all-good rows: every row contributes its edge. -/
theorem rebn_strict_ok_char :
    ∀ (edges : List (String × String)) (ntp : String → List String)
      (parts : Option (List String)) (resolved : List (String × String)) (skipped : Nat),
      (∀ r ∈ edges, rowGood ntp parts r = true) →
      edges.foldl (rebn_step ntp true parts) (Except.ok (resolved, skipped)) =
        Except.ok (resolved ++ edges.map (pickRow ntp parts), skipped) := by
  intro edges
  induction edges with
  | nil => intro ntp parts resolved skipped _; simp
  | cons row rest ih =>
      intro ntp parts resolved skipped hall
      rw [List.foldl_cons,
        rebn_step_strict_good ntp parts row resolved skipped (hall row (by simp)),
        ih ntp parts _ _ (fun r hr => hall r (by simp [hr]))]
      simp

/-- Strict resolution aborts whenever some row is bad. -/
theorem rebn_strict_error_exists :
    ∀ (edges : List (String × String)) (ntp : String → List String)
      (parts : Option (List String)) (resolved : List (String × String)) (skipped : Nat),
      (∃ r ∈ edges, rowGood ntp parts r = false) →
      ∃ e, edges.foldl (rebn_step ntp true parts) (Except.ok (resolved, skipped)) =
        Except.error e := by
  intro edges
  induction edges with
  | nil => intro ntp parts resolved skipped h; simp at h
  | cons row rest ih =>
      intro ntp parts resolved skipped hex
      obtain ⟨r, hr, hbad⟩ := hex
      rw [List.foldl_cons]
      rcases List.mem_cons.mp hr with rfl | hr2
      · obtain ⟨e, he⟩ := rebn_step_strict_bad ntp parts r resolved skipped hbad
        rw [he]
        exact ⟨e, rebn_error_absorb rest ntp true parts e⟩
      · by_cases hg : rowGood ntp parts row = true
        · rw [rebn_step_strict_good ntp parts row resolved skipped hg]
          exact ih ntp parts _ _ ⟨r, hr2, hbad⟩
        · obtain ⟨e, he⟩ := rebn_step_strict_bad ntp parts row resolved skipped
            (Bool.not_eq_true _ ▸ hg)
          rw [he]
          exact ⟨e, rebn_error_absorb rest ntp true parts e⟩

/-- import_data's per-row classification in terms of the row predicates. -/
theorem import_step_char (ntp : String → List String)
    (st : List (String × String) × Nat × Nat) (row : String × String) :
    import_nr_step ntp st row =
      if importUnknown ntp row then (st.1, st.2.1 + 1, st.2.2)
      else if importAmbiguous ntp row then (st.1, st.2.1, st.2.2 + 1)
      else (st.1 ++ [pickRow ntp none row], st.2.1, st.2.2) := by
  simp only [import_nr_step, importUnknown, importAmbiguous, pickRow, effCandidates_none]
  by_cases h1 : ((ntp (pyStrip row.1)).isEmpty || (ntp (pyStrip row.2)).isEmpty) = true
  · simp [h1]
  · rw [if_neg h1, if_neg h1]
    rw [Bool.not_eq_true] at h1
    rw [h1]
    by_cases h2 : ((ntp (pyStrip row.1)).length != 1 || (ntp (pyStrip row.2)).length != 1) = true
    · simp [h2]
    · rw [Bool.not_eq_true] at h2
      simp [h2]

/-- The three import_data row classes are mutually exclusive and exhaustive:
    a row is good exactly when it is neither unknown nor ambiguous. -/
theorem import_good_iff (ntp : String → List String) (row : String × String) :
    rowGood ntp none row = (!importUnknown ntp row && !importAmbiguous ntp row) := by
  simp only [rowGood, effCandidates_none, importUnknown, importAmbiguous]
  by_cases h1 : ((ntp (pyStrip row.1)).isEmpty || (ntp (pyStrip row.2)).isEmpty) = true
  · rw [h1]
    rw [Bool.or_eq_true] at h1
    rcases h1 with h | h
    · have : ntp (pyStrip row.1) = [] := List.isEmpty_iff.mp h
      simp [this]
    · have : ntp (pyStrip row.2) = [] := List.isEmpty_iff.mp h
      simp [this]
  · rw [Bool.not_eq_true] at h1
    rw [h1]
    by_cases h2 : ((ntp (pyStrip row.1)).length != 1 || (ntp (pyStrip row.2)).length != 1) = true
    · rw [h2]
      rw [Bool.or_eq_true] at h2
      rcases h2 with h | h <;> simp only [bne_iff_ne, ne_eq] at h <;> simp [h]
    · rw [Bool.not_eq_true] at h2
      rw [h2]
      simp only [Bool.or_eq_false_iff] at h2
      obtain ⟨ha, hb⟩ := h2
      simp only [bne_eq_false_iff_eq] at ha hb
      simp [ha, hb]

/-- The import_data classification loop in closed form. -/
theorem import_nr_char :
    ∀ (edges : List (String × String)) (ntp : String → List String)
      (acc : List (String × String) × Nat × Nat),
      edges.foldl (import_nr_step ntp) acc =
        (acc.1 ++ (edges.filter (rowGood ntp none)).map (pickRow ntp none),
         acc.2.1 + edges.countP (importUnknown ntp),
         acc.2.2 + edges.countP (importAmbiguous ntp)) := by
  intro edges
  induction edges with
  | nil => intro ntp acc; simp
  | cons row rest ih =>
      intro ntp acc
      rw [List.foldl_cons, import_step_char, List.filter_cons, List.countP_cons,
        List.countP_cons]
      by_cases h1 : importUnknown ntp row = true
      · have hg : rowGood ntp none row = false := by
          rw [import_good_iff, h1]
          rfl
        rw [if_pos h1, ih]
        simp [hg, h1, importAmbiguous]
        omega
      · rw [Bool.not_eq_true] at h1
        rw [if_neg (by simp [h1]), ih]
        by_cases h2 : importAmbiguous ntp row = true
        · have hg : rowGood ntp none row = false := by
            rw [import_good_iff, h2]
            simp
          rw [if_pos h2]
          simp [hg, h1, h2]
          omega
        · rw [Bool.not_eq_true] at h2
          have hg : rowGood ntp none row = true := by
            rw [import_good_iff, h1, h2]
            rfl
          rw [if_neg (by simp [h2])]
          simp [hg, h1, h2]

/-- C3: with any unknown (zero-candidate) or ambiguous (multi-candidate) row,
    strict mode aborts the parse with an error, in both resolver code paths;
    lenient mode skips and counts each such row exactly once and never
    guesses; rows with exactly one candidate on each side produce exactly one
    number edge. (Candidate counts refer to the candidate lists the code
    classifies on: for resolve_edges_by_name these include the parts-key
    fallback, for import_data the plain index lookup.) -/
theorem c3_strict_lenient_resolution :
    (∀ (edges : List (String × String)) (ntp : String → List String)
        (parts : Option (List String)),
      (∃ r ∈ edges, rowGood ntp parts r = false) →
      ∃ e, resolve_edges_by_name edges ntp true parts = Except.error e) ∧
    (∀ (edges : List (String × String)) (ntp : String → List String)
        (parts : Option (List String)),
      (∀ r ∈ edges, rowGood ntp parts r = true) →
      resolve_edges_by_name edges ntp true parts =
        Except.ok (edges.map (pickRow ntp parts), 0)) ∧
    (∀ (edges : List (String × String)) (ntp : String → List String)
        (parts : Option (List String)),
      resolve_edges_by_name edges ntp false parts =
        Except.ok ((edges.filter (rowGood ntp parts)).map (pickRow ntp parts),
          edges.countP (fun r => !(rowGood ntp parts r)))) ∧
    (∀ (edges : List (String × String)) (ntp : String → List String),
      import_name_resolution edges ntp =
        ((edges.filter (rowGood ntp none)).map (pickRow ntp none),
         edges.countP (importUnknown ntp), edges.countP (importAmbiguous ntp))) ∧
    (∀ (edges : List (String × String)) (ntp : String → List String),
      0 < edges.countP (importUnknown ntp) + edges.countP (importAmbiguous ntp) ↔
      ∃ r ∈ edges, rowGood ntp none r = false) := by
  refine ⟨?_, ?_, ?_, ?_, ?_⟩
  · intro edges ntp parts h
    exact rebn_strict_error_exists edges ntp parts [] 0 h
  · intro edges ntp parts h
    unfold resolve_edges_by_name
    rw [rebn_strict_ok_char edges ntp parts [] 0 h]
    simp
  · intro edges ntp parts
    unfold resolve_edges_by_name
    rw [rebn_lenient_char edges ntp parts [] 0]
    simp
  · intro edges ntp
    unfold import_name_resolution
    rw [import_nr_char edges ntp ([], 0, 0)]
    simp
  · intro edges ntp
    constructor
    · intro h
      by_cases hu : 0 < edges.countP (importUnknown ntp)
      · obtain ⟨r, hr, hpr⟩ := List.countP_pos_iff.mp hu
        refine ⟨r, hr, ?_⟩
        rw [import_good_iff, hpr]
        rfl
      · have ha : 0 < edges.countP (importAmbiguous ntp) := by omega
        obtain ⟨r, hr, hpr⟩ := List.countP_pos_iff.mp ha
        refine ⟨r, hr, ?_⟩
        rw [import_good_iff, hpr]
        simp
    · rintro ⟨r, hr, hbad⟩
      rw [import_good_iff] at hbad
      rcases Bool.and_eq_false_iff.mp hbad with h | h
      · rw [Bool.not_eq_false'] at h
        have : 0 < edges.countP (importUnknown ntp) :=
          List.countP_pos_iff.mpr ⟨r, hr, h⟩
        omega
      · rw [Bool.not_eq_false'] at h
        have : 0 < edges.countP (importAmbiguous ntp) :=
          List.countP_pos_iff.mpr ⟨r, hr, h⟩
        omega

/-- Witness for c3_strict_lenient_resolution: with the name B mapping to the
    two numbers 2 and 3, the strict parse of the single row (W, B) aborts. -/
theorem c3_strict_lenient_resolution_witness :
    ∃ e, resolve_edges_by_name [("W", "B")]
      (fun n => if n = "W" then ["1"] else if n = "B" then ["2", "3"] else [])
      true none = Except.error e :=
  c3_strict_lenient_resolution.1 [("W", "B")]
    (fun n => if n = "W" then ["1"] else if n = "B" then ["2", "3"] else [])
    none ⟨("W", "B"), by decide, by decide⟩

/-- C10: in resolve_edges_by_name, a name with zero index candidates that is
    itself a key of the parts map is treated as its own single-candidate part
    number, so a row whose other side resolves to one candidate produces an
    edge using the string as the number — in both strict and lenient mode —
    instead of being classified unknown. -/
theorem c10_parts_key_fallback :
    (∀ (ntp : String → List String) (ps : List String) (key : String),
      ntp key = [] → ps ≠ [] → key ∈ ps →
      effCandidates ntp (some ps) key = [key]) ∧
    (∀ (ntp : String → List String) (ps : List String) (row : String × String)
        (c : String) (strict : Bool),
      ntp (pyStrip row.1) = [] → ps ≠ [] → (pyStrip row.1) ∈ ps →
      effCandidates ntp (some ps) (pyStrip row.2) = [c] →
      resolve_edges_by_name [row] ntp strict (some ps) =
        Except.ok ([((pyStrip row.1), c)], 0)) ∧
    (∀ (ntp : String → List String) (ps : List String) (row : String × String)
        (p : String) (strict : Bool),
      effCandidates ntp (some ps) (pyStrip row.1) = [p] →
      ntp (pyStrip row.2) = [] → ps ≠ [] → (pyStrip row.2) ∈ ps →
      resolve_edges_by_name [row] ntp strict (some ps) =
        Except.ok ([(p, (pyStrip row.2))], 0)) := by
  have hfall : ∀ (ntp : String → List String) (ps : List String) (key : String),
      ntp key = [] → ps ≠ [] → key ∈ ps →
      effCandidates ntp (some ps) key = [key] := by
    intro ntp ps key hn hps hmem
    have hcont : ps.contains key = true := List.elem_eq_true_of_mem hmem
    have hemp : ps.isEmpty = false := by
      cases ps with
      | nil => exact absurd rfl hps
      | cons a l => rfl
    simp [effCandidates, partsTruthy, hn, hemp, hcont, hmem]
  refine ⟨hfall, ?_, ?_⟩
  · intro ntp ps row c strict hn hps hmem hc
    have hp := hfall ntp ps (pyStrip row.1) hn hps hmem
    unfold resolve_edges_by_name
    simp [rebn_step, hp, hc]
  · intro ntp ps row p strict hp hn hps hmem
    have hc := hfall ntp ps (pyStrip row.2) hn hps hmem
    unfold resolve_edges_by_name
    simp [rebn_step, hp, hc]

/-- Witness for c10_parts_key_fallback: name P misses the index but is a part
    number, name C resolves to 9; the strict parse yields the edge (P, 9). -/
theorem c10_parts_key_fallback_witness :
    resolve_edges_by_name [("P", "C")] (fun n => if n = "C" then ["9"] else [])
      true (some ["P"]) = Except.ok ([("P", "9")], 0) := by
  have h := c10_parts_key_fallback.2.1 (fun n => if n = "C" then ["9"] else [])
    ["P"] ("P", "C") "9" true (by decide) (by decide) (by decide) (by decide)
  simpa using h

/-- C6 counterexample: with budget D = 1 the child of the top part is dequeued
    at depth 1, and the fetch for it requests depth 1, not min(D - d, 9) = 0. -/
theorem c6_counterexample :
    DepthReachable 1 1 ∧ req_depth 1 1 ≠ min (1 - 1) 9 :=
  ⟨DepthReachable.child 0 DepthReachable.top (by decide), by decide⟩

/-- C6 (amended): every dequeued item sits at depth at most D; the requested
    fetch depth is max(1, min(D - d, 9)), which equals min(D - d, 9) for
    every item strictly above the budget floor (d < D) and equals 1 for items
    dequeued at depth D. -/
theorem c6_request_depth_amended :
    (∀ (D d : Nat), DepthReachable D d → d ≤ D) ∧
    (∀ (D d : Nat), DepthReachable D d → d < D → req_depth D d = min (D - d) 9) ∧
    (∀ D : Nat, req_depth D D = 1) := by
  refine ⟨?_, ?_, ?_⟩
  · intro D d h
    induction h with
    | top => exact Nat.zero_le D
    | child d _ hlt _ => omega
  · intro D d _ hlt
    unfold req_depth
    rw [Nat.max_def, Nat.min_def]
    split <;> split <;> omega
  · intro D
    simp [req_depth]

/-- Witness for c6_request_depth_amended: at budget 4, the fetch for an item
    dequeued at depth 2 requests depth min(4-2, 9) = 2. -/
theorem c6_request_depth_amended_witness :
    req_depth 4 2 = min (4 - 2) 9 :=
  c6_request_depth_amended.2.1 4 2
    (DepthReachable.child 1
      (DepthReachable.child 0 DepthReachable.top (by decide)) (by decide))
    (by decide)

/-- C7: an offline miss returns absent without invoking the remote client and
    the crawler enqueues nothing from that branch; an online miss always
    invokes the remote, and a successful (truthy) response is written to the
    cache entry before being returned. -/
theorem c7_offline_online_cache :
    (∀ (cached remote : Option Json), truthyOpt cached = false →
      get_part_details_cached cached true remote = ⟨none, cached, false, 0, 0⟩) ∧
    (∀ (cached r1 r2 : Option Json), truthyOpt cached = false →
      get_details_by_id_cached cached true r1 r2 = ⟨none, cached, false, 0, 0⟩) ∧
    (∀ (partsKeys : List String) (pn : String) (depth D : Nat),
      number_step_enqueues partsKeys pn depth D none = []) ∧
    (∀ (cached remote : Option Json), truthyOpt cached = false →
      (get_part_details_cached cached false remote).remoteCalled = true) ∧
    (∀ (cached remote : Option Json), truthyOpt cached = false →
      truthyOpt remote = true →
      get_part_details_cached cached false remote = ⟨remote, remote, true, 0, 1⟩) ∧
    (∀ (cached r1 r2 : Option Json), truthyOpt cached = false →
      (get_details_by_id_cached cached false r1 r2).remoteCalled = true ∧
      (truthyOpt (pyOr r1 r2) = true →
        get_details_by_id_cached cached false r1 r2 =
          ⟨pyOr r1 r2, pyOr r1 r2, true, 0, 1⟩)) := by
  refine ⟨?_, ?_, ?_, ?_, ?_, ?_⟩
  · intro cached remote h
    simp [get_part_details_cached, h]
  · intro cached r1 r2 h
    simp [get_details_by_id_cached, h]
  · intro partsKeys pn depth D
    by_cases h : partsKeys.contains pn = true <;> simp [number_step_enqueues, h]
  · intro cached remote h
    by_cases hr : truthyOpt remote = true <;> simp [get_part_details_cached, h, hr]
  · intro cached remote h hr
    simp [get_part_details_cached, h, hr]
  · intro cached r1 r2 h
    constructor
    · by_cases hr : truthyOpt (pyOr r1 r2) = true <;>
        simp [get_details_by_id_cached, h, hr]
    · intro hr
      simp [get_details_by_id_cached, h, hr]

/-- Witness for c7_offline_online_cache: an empty cache entry in offline mode
    returns absent without a remote call. -/
theorem c7_offline_online_cache_witness :
    get_part_details_cached none true (some (Json.str "srv")) =
      ⟨none, none, false, 0, 0⟩ :=
  c7_offline_online_cache.1 none (some (Json.str "srv")) (by decide)

/-- A first-reach fact is stable under later history growth. -/
theorem firstDepth_append_of_some (l1 l2 : List (String × Nat)) (n : String) (d : Nat)
    (h : firstDepth l1 n = some d) : firstDepth (l1 ++ l2) n = some d := by
  unfold firstDepth at h ⊢
  rw [List.find?_append]
  cases hf : l1.find? (fun e => e.1 == n) with
  | none => rw [hf] at h; simp at h
  | some x => rw [hf] at h; simpa using h

/-- When no earlier history entry names a node, the node's first reach is the
    entry at the current position. -/
theorem firstDepth_hit (pre rest : List (String × Nat)) (part : String) (depth : Nat)
    (hne : ∀ e ∈ pre, e.1 ≠ part) :
    firstDepth (pre ++ (part, depth) :: rest) part = some depth := by
  unfold firstDepth
  rw [List.find?_append]
  have hnone : pre.find? (fun e => e.1 == part) = none := by
    rw [List.find?_eq_none]
    intro e he
    simp [hne e he]
  rw [hnone]
  simp

/-- Nodes already labeled stay in the walk's output. -/
theorem bfs_nodes_mono :
    ∀ (fuel : Nat) (children : String → List String) (mD mC : Option Nat)
      (queue : List (String × Nat)) (visited : List String) (nodes : List (String × Nat))
      (edgesOut : List (String × String)) (hist : List (String × Nat))
      (nd : String × Nat), nd ∈ nodes →
      nd ∈ (bfs_walk children mD mC fuel queue visited nodes edgesOut hist).1 := by
  intro fuel
  induction fuel with
  | zero => intro children mD mC queue visited nodes edgesOut hist nd h; exact h
  | succ fuel ih =>
      intro children mD mC queue visited nodes edgesOut hist nd h
      cases queue with
      | nil => exact h
      | cons pd rest =>
          obtain ⟨part, depth⟩ := pd
          by_cases hv : part ∈ visited
          · rw [show bfs_walk children mD mC (fuel + 1) ((part, depth) :: rest)
                visited nodes edgesOut hist =
                bfs_walk children mD mC fuel rest visited nodes edgesOut hist from by
              simp [bfs_walk, hv]]
            exact ih children mD mC rest visited nodes edgesOut hist nd h
          · by_cases hcut : depthCut mD depth = true
            · rw [show bfs_walk children mD mC (fuel + 1) ((part, depth) :: rest)
                  visited nodes edgesOut hist =
                  bfs_walk children mD mC fuel rest (part :: visited)
                    (nodes ++ [(part, depth)]) edgesOut hist from by
                simp [bfs_walk, hv, hcut]]
              exact ih children mD mC rest (part :: visited) _ edgesOut hist nd
                (List.mem_append_left _ h)
            · rw [show bfs_walk children mD mC (fuel + 1) ((part, depth) :: rest)
                  visited nodes edgesOut hist =
                  bfs_walk children mD mC fuel
                    (rest ++ (match mC with
                      | some m => (children part).take m
                      | none => children part).map (fun ch => (ch, depth + 1)))
                    (part :: visited) (nodes ++ [(part, depth)])
                    (edgesOut ++ (match mC with
                      | some m => (children part).take m
                      | none => children part).map (fun ch => (part, ch)))
                    (hist ++ (match mC with
                      | some m => (children part).take m
                      | none => children part).map (fun ch => (ch, depth + 1))) from by
                simp [bfs_walk, hv, hcut]]
              exact ih children mD mC _ (part :: visited) _ _ _ nd
                (List.mem_append_left _ h)

/-- Walk step on an already-visited head: skip. -/
theorem bfs_walk_visited (children : String → List String) (mD mC : Option Nat)
    (fuel : Nat) (part : String) (depth : Nat) (rest : List (String × Nat))
    (visited : List String) (nodes : List (String × Nat))
    (edgesOut : List (String × String)) (hist : List (String × Nat))
    (hv : part ∈ visited) :
    bfs_walk children mD mC (fuel + 1) ((part, depth) :: rest) visited nodes edgesOut hist =
      bfs_walk children mD mC fuel rest visited nodes edgesOut hist := by
  simp [bfs_walk, hv]

/-- Walk step on a new head at the depth cut: label it, no children. -/
theorem bfs_walk_cut (children : String → List String) (mD mC : Option Nat)
    (fuel : Nat) (part : String) (depth : Nat) (rest : List (String × Nat))
    (visited : List String) (nodes : List (String × Nat))
    (edgesOut : List (String × String)) (hist : List (String × Nat))
    (hv : part ∉ visited)
    (hcut : depthCut mD depth = true) :
    bfs_walk children mD mC (fuel + 1) ((part, depth) :: rest) visited nodes edgesOut hist =
      bfs_walk children mD mC fuel rest (part :: visited)
        (nodes ++ [(part, depth)]) edgesOut hist := by
  simp [bfs_walk, hv, hcut]

/-- Walk step on a new head below the cut: label it and enqueue the kept
    children. -/
theorem bfs_walk_expand (children : String → List String) (mD mC : Option Nat)
    (fuel : Nat) (part : String) (depth : Nat) (rest : List (String × Nat))
    (visited : List String) (nodes : List (String × Nat))
    (edgesOut : List (String × String)) (hist : List (String × Nat))
    (hv : part ∉ visited)
    (hcut : depthCut mD depth = false) :
    bfs_walk children mD mC (fuel + 1) ((part, depth) :: rest) visited nodes edgesOut hist =
      bfs_walk children mD mC fuel
        (rest ++ (match mC with
          | some m => (children part).take m
          | none => children part).map (fun ch => (ch, depth + 1)))
        (part :: visited) (nodes ++ [(part, depth)])
        (edgesOut ++ (match mC with
          | some m => (children part).take m
          | none => children part).map (fun ch => (part, ch)))
        (hist ++ (match mC with
          | some m => (children part).take m
          | none => children part).map (fun ch => (ch, depth + 1))) := by
  simp [bfs_walk, hv, hcut]

/-- Depth bound: when a maximum depth is set, every label stays within it. -/
theorem bfs_depth_bound :
    ∀ (fuel : Nat) (children : String → List String) (D : Nat) (mC : Option Nat)
      (queue : List (String × Nat)) (visited : List String) (nodes : List (String × Nat))
      (edgesOut : List (String × String)) (hist : List (String × Nat)),
      (∀ e ∈ queue, e.2 ≤ D) → (∀ nd ∈ nodes, nd.2 ≤ D) →
      ∀ nd ∈ (bfs_walk children (some D) mC fuel queue visited nodes edgesOut hist).1,
        nd.2 ≤ D := by
  intro fuel
  induction fuel with
  | zero => intro children D mC queue visited nodes edgesOut hist _ h2 nd hnd; exact h2 nd hnd
  | succ fuel ih =>
      intro children D mC queue visited nodes edgesOut hist h1 h2 nd hnd
      cases queue with
      | nil => exact h2 nd hnd
      | cons pd rest =>
          obtain ⟨part, depth⟩ := pd
          have hdep : depth ≤ D := h1 (part, depth) (by simp)
          have h1r : ∀ e ∈ rest, e.2 ≤ D := fun e he => h1 e (by simp [he])
          by_cases hv : part ∈ visited
          · rw [bfs_walk_visited children _ mC fuel part depth rest visited nodes
              edgesOut hist hv] at hnd
            exact ih children D mC rest visited nodes edgesOut hist h1r h2 nd hnd
          · by_cases hcut : depthCut (some D) depth = true
            · rw [bfs_walk_cut children _ mC fuel part depth rest visited nodes
                edgesOut hist hv hcut] at hnd
              refine ih children D mC rest (part :: visited) _ edgesOut hist h1r ?_ nd hnd
              intro q hq
              rcases List.mem_append.mp hq with hq | hq
              · exact h2 q hq
              · simp at hq
                rw [hq]
                exact hdep
            · rw [Bool.not_eq_true] at hcut
              rw [bfs_walk_expand children _ mC fuel part depth rest visited nodes
                edgesOut hist hv hcut] at hnd
              have hlt : depth < D := by
                simp only [depthCut, decide_eq_false_iff_not, not_le] at hcut
                exact hcut
              refine ih children D mC _ (part :: visited) _ _ _ ?_ ?_ nd hnd
              · intro q hq
                rcases List.mem_append.mp hq with hq | hq
                · exact h1r q hq
                · obtain ⟨ch, hch, hq2⟩ := List.mem_map.mp hq
                  rw [← hq2]
                  omega
              · intro q hq
                rcases List.mem_append.mp hq with hq | hq
                · exact h2 q hq
                · simp at hq
                  rw [hq]
                  exact hdep

/-- Induced edges come from expanded nodes, which sit strictly below the
    depth cut. -/
theorem bfs_edges_bound :
    ∀ (fuel : Nat) (children : String → List String) (D : Nat) (mC : Option Nat)
      (queue : List (String × Nat)) (visited : List String) (nodes : List (String × Nat))
      (edgesOut : List (String × String)) (hist : List (String × Nat)),
      (∀ uv ∈ edgesOut, ∃ d, d < D ∧ (uv.1, d) ∈ nodes) →
      ∀ uv ∈ (bfs_walk children (some D) mC fuel queue visited nodes edgesOut hist).2.1,
        ∃ d, d < D ∧
          (uv.1, d) ∈ (bfs_walk children (some D) mC fuel queue visited nodes edgesOut hist).1 := by
  intro fuel
  induction fuel with
  | zero => intro children D mC queue visited nodes edgesOut hist h uv huv; exact h uv huv
  | succ fuel ih =>
      intro children D mC queue visited nodes edgesOut hist h uv huv
      cases queue with
      | nil => exact h uv huv
      | cons pd rest =>
          obtain ⟨part, depth⟩ := pd
          by_cases hv : part ∈ visited
          · rw [bfs_walk_visited children _ mC fuel part depth rest visited nodes
              edgesOut hist hv] at huv ⊢
            exact ih children D mC rest visited nodes edgesOut hist h uv huv
          · by_cases hcut : depthCut (some D) depth = true
            · rw [bfs_walk_cut children _ mC fuel part depth rest visited nodes
                edgesOut hist hv hcut] at huv ⊢
              refine ih children D mC rest (part :: visited) _ edgesOut hist ?_ uv huv
              intro q hq
              obtain ⟨d, hd, hmem⟩ := h q hq
              exact ⟨d, hd, List.mem_append_left _ hmem⟩
            · rw [Bool.not_eq_true] at hcut
              rw [bfs_walk_expand children _ mC fuel part depth rest visited nodes
                edgesOut hist hv hcut] at huv ⊢
              have hlt : depth < D := by
                simp only [depthCut, decide_eq_false_iff_not, not_le] at hcut
                exact hcut
              refine ih children D mC _ (part :: visited) _ _ _ ?_ uv huv
              intro q hq
              rcases List.mem_append.mp hq with hq | hq
              · obtain ⟨d, hd, hmem⟩ := h q hq
                exact ⟨d, hd, List.mem_append_left _ hmem⟩
              · obtain ⟨ch, hch, hq2⟩ := List.mem_map.mp hq
                refine ⟨depth, hlt, ?_⟩
                rw [← hq2]
                simp

/-- Every labeled node carries the depth of its first history entry: the
    depth at which the walk first reached it. -/
theorem bfs_first_reach :
    ∀ (fuel : Nat) (children : String → List String) (mD mC : Option Nat)
      (queue : List (String × Nat)) (visited : List String) (nodes : List (String × Nat))
      (edgesOut : List (String × String)) (hist pre : List (String × Nat)),
      hist = pre ++ queue →
      (∀ e ∈ pre, e.1 ∈ visited) →
      (∀ nd ∈ nodes, firstDepth hist nd.1 = some nd.2) →
      ∀ nd ∈ (bfs_walk children mD mC fuel queue visited nodes edgesOut hist).1,
        firstDepth
          (bfs_walk children mD mC fuel queue visited nodes edgesOut hist).2.2
          nd.1 = some nd.2 := by
  intro fuel
  induction fuel with
  | zero =>
      intro children mD mC queue visited nodes edgesOut hist pre h1 h2 h3 nd hnd
      exact h3 nd hnd
  | succ fuel ih =>
      intro children mD mC queue visited nodes edgesOut hist pre h1 h2 h3 nd hnd
      cases queue with
      | nil => exact h3 nd hnd
      | cons pd rest =>
          obtain ⟨part, depth⟩ := pd
          by_cases hv : part ∈ visited
          · rw [bfs_walk_visited children mD mC fuel part depth rest visited nodes
              edgesOut hist hv] at hnd ⊢
            refine ih children mD mC rest visited nodes edgesOut hist
              (pre ++ [(part, depth)]) ?_ ?_ h3 nd hnd
            · rw [h1]; simp
            · intro e he
              rcases List.mem_append.mp he with he | he
              · exact h2 e he
              · simp at he
                rw [he]
                exact hv
          · have hfresh : ∀ e ∈ pre, e.1 ≠ part := by
              intro e he heq
              exact hv (heq ▸ h2 e he)
            have hhit : firstDepth hist part = some depth := by
              rw [h1]
              exact firstDepth_hit pre rest part depth hfresh
            by_cases hcut : depthCut mD depth = true
            · rw [bfs_walk_cut children mD mC fuel part depth rest visited nodes
                edgesOut hist hv hcut] at hnd ⊢
              refine ih children mD mC rest (part :: visited) _ edgesOut hist
                (pre ++ [(part, depth)]) ?_ ?_ ?_ nd hnd
              · rw [h1]; simp
              · intro e he
                rcases List.mem_append.mp he with he | he
                · exact List.mem_cons_of_mem _ (h2 e he)
                · simp at he
                  rw [he]
                  exact List.mem_cons_self _ _
              · intro q hq
                rcases List.mem_append.mp hq with hq | hq
                · exact h3 q hq
                · simp at hq
                  rw [hq]
                  exact hhit
            · rw [Bool.not_eq_true] at hcut
              rw [bfs_walk_expand children mD mC fuel part depth rest visited nodes
                edgesOut hist hv hcut] at hnd ⊢
              refine ih children mD mC _ (part :: visited) _ _ _
                (pre ++ [(part, depth)]) ?_ ?_ ?_ nd hnd
              · rw [h1]; simp
              · intro e he
                rcases List.mem_append.mp he with he | he
                · exact List.mem_cons_of_mem _ (h2 e he)
                · simp at he
                  rw [he]
                  exact List.mem_cons_self _ _
              · intro q hq
                rcases List.mem_append.mp hq with hq | hq
                · exact firstDepth_append_of_some hist _ q.1 q.2 (h3 q hq)
                · simp at hq
                  rw [hq]
                  exact firstDepth_append_of_some hist _ part depth hhit

/-- C8: the bounded extractor labels every node with the depth of its first
    reach (the first history entry for it, hence at most one label per node);
    with max_depth set no label exceeds it and every induced edge leaves a
    node strictly below it (no children are enqueued at or past the cut); on
    R→A→B with max_depth 1, both extractors output exactly R at depth 0 and
    A at depth 1, and B is absent. -/
theorem c8_bounded_subgraph :
    (build_subgraph_from_pairs [("R", "A"), ("A", "B")] "R" (some 1) none).1 =
      [("R", 0), ("A", 1)] ∧
    (∀ d : Nat, ("B", d) ∉ (build_subgraph_from_pairs [("R", "A"), ("A", "B")] "R"
      (some 1) none).1) ∧
    (build_subgraph [("R", "A", 1), ("A", "B", 2)] "R" (some 1) none).1 =
      [("R", 0), ("A", 1)] ∧
    (∀ (edges : List (String × String)) (root : String) (D : Nat) (mC : Option Nat),
      ∀ nd ∈ (build_subgraph_from_pairs edges root (some D) mC).1, nd.2 ≤ D) ∧
    (∀ (edges : List (String × String)) (root : String) (D : Nat) (mC : Option Nat),
      ∀ uv ∈ (build_subgraph_from_pairs edges root (some D) mC).2.1,
        ∃ d, d < D ∧ (uv.1, d) ∈ (build_subgraph_from_pairs edges root (some D) mC).1) ∧
    (∀ (edges : List (String × String)) (root : String) (mD mC : Option Nat),
      ∀ nd ∈ (build_subgraph_from_pairs edges root mD mC).1,
        firstDepth (build_subgraph_from_pairs edges root mD mC).2.2 nd.1 = some nd.2) ∧
    (∀ (edges : List (String × String)) (root : String) (mD mC : Option Nat)
        (n : String) (d1 d2 : Nat),
      (n, d1) ∈ (build_subgraph_from_pairs edges root mD mC).1 →
      (n, d2) ∈ (build_subgraph_from_pairs edges root mD mC).1 → d1 = d2) := by
  refine ⟨rfl, ?_, rfl, ?_, ?_, ?_, ?_⟩
  · intro d hd
    rw [show (build_subgraph_from_pairs [("R", "A"), ("A", "B")] "R" (some 1) none).1 =
      [("R", 0), ("A", 1)] from rfl] at hd
    simp at hd
  · intro edges root D mC nd hnd
    exact bfs_depth_bound (bfs_fuel edges.length) (childrenMap edges) D mC
      [(root, 0)] [] [] [] [(root, 0)]
      (by intro e he; simp at he; rw [he]; exact Nat.zero_le D)
      (by intro q hq; simp at hq) nd hnd
  · intro edges root D mC uv huv
    exact bfs_edges_bound (bfs_fuel edges.length) (childrenMap edges) D mC
      [(root, 0)] [] [] [] [(root, 0)]
      (by intro q hq; simp at hq) uv huv
  · intro edges root mD mC nd hnd
    exact bfs_first_reach (bfs_fuel edges.length) (childrenMap edges) mD mC
      [(root, 0)] [] [] [] [(root, 0)] []
      (by simp) (by intro e he; simp at he) (by intro q hq; simp at hq) nd hnd
  · intro edges root mD mC n d1 d2 h1 h2
    have hf1 := bfs_first_reach (bfs_fuel edges.length) (childrenMap edges) mD mC
      [(root, 0)] [] [] [] [(root, 0)] []
      (by simp) (by intro e he; simp at he) (by intro q hq; simp at hq) (n, d1) h1
    have hf2 := bfs_first_reach (bfs_fuel edges.length) (childrenMap edges) mD mC
      [(root, 0)] [] [] [] [(root, 0)] []
      (by simp) (by intro e he; simp at he) (by intro q hq; simp at hq) (n, d2) h2
    rw [hf1] at hf2
    injection hf2

/-- Witness for c8_bounded_subgraph: in the example extraction, node A is
    labeled with its first-reach depth 1. -/
theorem c8_bounded_subgraph_witness :
    firstDepth (build_subgraph_from_pairs [("R", "A"), ("A", "B")] "R"
      (some 1) none).2.2 "A" = some 1 :=
  c8_bounded_subgraph.2.2.2.2.2.1 [("R", "A"), ("A", "B")] "R" (some 1) none
    ("A", 1) (by decide)

/-- The children adjacency agrees with edge membership. -/
theorem childrenMap_mem (edges : List (String × String)) (x y : String) :
    y ∈ childrenMap edges x ↔ (x, y) ∈ edges := by
  unfold childrenMap
  constructor
  · intro h
    obtain ⟨e, he, hey⟩ := List.mem_map.mp h
    obtain ⟨he2, hex⟩ := List.mem_filter.mp he
    have hx : e.1 = x := by simpa using hex
    have : e = (x, y) := by
      obtain ⟨a, b⟩ := e
      simp only at hx hey
      rw [hx, hey]
    rw [← this]
    exact he2
  · intro h
    refine List.mem_map.mpr ⟨(x, y), List.mem_filter.mpr ⟨h, by simp⟩, rfl⟩

/-- The DFS never forgets visited nodes. -/
theorem dfs_visited_mono :
    ∀ (fuel : Nat) (children : String → List String) (part : String)
      (visited : Finset String),
      visited ⊆ (get_all_descendants children fuel part visited).2 := by
  intro fuel
  induction fuel with
  | zero => intro children part visited; exact fun x hx => hx
  | succ fuel ih =>
      intro children part visited
      by_cases hv : part ∈ visited
      · rw [get_all_descendants, if_pos hv]
      · rw [get_all_descendants, if_neg hv]
        have hfold : ∀ (cs : List String) (acc : Finset String × Finset String),
            acc.2 ⊆ (cs.foldl (fun acc child =>
              let r := get_all_descendants children fuel child acc.2
              (insert child acc.1 ∪ r.1, r.2)) acc).2 := by
          intro cs
          induction cs with
          | nil => intro acc; exact fun x hx => hx
          | cons c cs ihc =>
              intro acc
              rw [List.foldl_cons]
              refine Finset.Subset.trans (ih children c acc.2) ?_
              exact ihc ⟨insert c acc.1 ∪ (get_all_descendants children fuel c acc.2).1,
                (get_all_descendants children fuel c acc.2).2⟩
        refine Finset.Subset.trans (Finset.subset_insert part visited) ?_
        exact hfold (children part) (∅, insert part visited)

/-- Along the DFS fold, the visited component only grows. -/
theorem dfs_fold_vis_mono (children : String → List String) (fuel : Nat) :
    ∀ (cs : List String) (acc : Finset String × Finset String),
      acc.2 ⊆ (cs.foldl (fun acc child =>
        let r := get_all_descendants children fuel child acc.2
        (insert child acc.1 ∪ r.1, r.2)) acc).2 := by
  intro cs
  induction cs with
  | nil => intro acc; exact fun x hx => hx
  | cons c cs ihc =>
      intro acc
      rw [List.foldl_cons]
      refine Finset.Subset.trans (dfs_visited_mono fuel children c acc.2) ?_
      exact ihc ⟨insert c acc.1 ∪ (get_all_descendants children fuel c acc.2).1,
        (get_all_descendants children fuel c acc.2).2⟩

/-- Along the DFS fold, the descendants component only grows. -/
theorem dfs_fold_ds_mono (children : String → List String) (fuel : Nat) :
    ∀ (cs : List String) (acc : Finset String × Finset String),
      acc.1 ⊆ (cs.foldl (fun acc child =>
        let r := get_all_descendants children fuel child acc.2
        (insert child acc.1 ∪ r.1, r.2)) acc).1 := by
  intro cs
  induction cs with
  | nil => intro acc; exact fun x hx => hx
  | cons c cs ihc =>
      intro acc
      rw [List.foldl_cons]
      refine Finset.Subset.trans ?_ (ihc _)
      intro x hx
      exact Finset.mem_union_left _ (Finset.mem_insert_of_mem hx)

/-- Every processed child ends up in the descendants component. -/
theorem dfs_fold_elem (children : String → List String) (fuel : Nat) :
    ∀ (cs : List String) (acc : Finset String × Finset String) (c : String),
      c ∈ cs →
      c ∈ (cs.foldl (fun acc child =>
        let r := get_all_descendants children fuel child acc.2
        (insert child acc.1 ∪ r.1, r.2)) acc).1 := by
  intro cs
  induction cs with
  | nil => intro acc c h; simp at h
  | cons c0 cs ihc =>
      intro acc c h
      rw [List.foldl_cons]
      rcases List.mem_cons.mp h with rfl | h2
      · refine dfs_fold_ds_mono children fuel cs _ ?_
        exact Finset.mem_union_left _ (Finset.mem_insert_self c _)
      · exact ihc _ c h2

/-- With positive fuel the part itself is visited afterwards. -/
theorem dfs_self_mem (children : String → List String) (fuel : Nat) (part : String)
    (visited : Finset String) (hf : 0 < fuel) :
    part ∈ (get_all_descendants children fuel part visited).2 := by
  cases fuel with
  | zero => exact absurd hf (by simp)
  | succ fuel =>
      by_cases hv : part ∈ visited
      · rw [get_all_descendants, if_pos hv]
        exact hv
      · rw [get_all_descendants, if_neg hv]
        exact dfs_fold_vis_mono children fuel _ _ (Finset.mem_insert_self part visited)

/-- Soundness: collected descendants are reachable in at least one step, and
    new visits are reachable in zero or more steps. -/
theorem dfs_sound :
    ∀ (fuel : Nat) (children : String → List String) (part : String)
      (visited : Finset String),
      (∀ d ∈ (get_all_descendants children fuel part visited).1,
        Relation.TransGen (fun x y => y ∈ children x) part d) ∧
      (∀ v ∈ (get_all_descendants children fuel part visited).2,
        v ∈ visited ∨ Relation.ReflTransGen (fun x y => y ∈ children x) part v) := by
  intro fuel
  induction fuel with
  | zero =>
      intro children part visited
      constructor
      · intro d hd
        simp [get_all_descendants] at hd
      · intro v hv
        exact Or.inl hv
  | succ fuel ih =>
      intro children part visited
      by_cases hv : part ∈ visited
      · rw [get_all_descendants, if_pos hv]
        exact ⟨fun d hd => absurd hd (by simp), fun v hvv => Or.inl hvv⟩
      · rw [get_all_descendants, if_neg hv]
        have hfold : ∀ (cs : List String) (acc : Finset String × Finset String),
            (∀ c ∈ cs, c ∈ children part) →
            (∀ d ∈ acc.1, Relation.TransGen (fun x y => y ∈ children x) part d) →
            (∀ v ∈ acc.2, v ∈ visited ∨
              Relation.ReflTransGen (fun x y => y ∈ children x) part v) →
            (∀ d ∈ (cs.foldl (fun acc child =>
                let r := get_all_descendants children fuel child acc.2
                (insert child acc.1 ∪ r.1, r.2)) acc).1,
              Relation.TransGen (fun x y => y ∈ children x) part d) ∧
            (∀ v ∈ (cs.foldl (fun acc child =>
                let r := get_all_descendants children fuel child acc.2
                (insert child acc.1 ∪ r.1, r.2)) acc).2,
              v ∈ visited ∨
                Relation.ReflTransGen (fun x y => y ∈ children x) part v) := by
          intro cs
          induction cs with
          | nil => intro acc _ h1 h2; exact ⟨h1, h2⟩
          | cons c cs ihc =>
              intro acc hcs h1 h2
              rw [List.foldl_cons]
              have hstep : c ∈ children part := hcs c (by simp)
              refine ihc ⟨insert c acc.1 ∪ (get_all_descendants children fuel c acc.2).1,
                  (get_all_descendants children fuel c acc.2).2⟩
                (fun x hx => hcs x (by simp [hx])) ?_ ?_
              · intro d hd
                rcases Finset.mem_union.mp hd with hd | hd
                · rcases Finset.mem_insert.mp hd with rfl | hd
                  · exact Relation.TransGen.single hstep
                  · exact h1 d hd
                · have hr := (ih children c acc.2).1 d hd
                  exact Relation.TransGen.head hstep hr
              · intro v hvv
                rcases (ih children c acc.2).2 v hvv with hvv | hvv
                · exact h2 v hvv
                · exact Or.inr (Relation.ReflTransGen.head hstep hvv)
        refine hfold (children part) ⟨∅, insert part visited⟩ (fun c hc => hc) ?_ ?_
        · intro d hd
          simp at hd
        · intro v hvv
          rcases Finset.mem_insert.mp hvv with rfl | hvv
          · exact Or.inr Relation.ReflTransGen.refl
          · exact Or.inl hvv

/-- Every node newly visited by the DFS has all its children collected. -/
theorem dfs_children_covered :
    ∀ (fuel : Nat) (children : String → List String) (part : String)
      (visited : Finset String),
      ∀ x ∈ (get_all_descendants children fuel part visited).2, x ∉ visited →
        ∀ y ∈ children x, y ∈ (get_all_descendants children fuel part visited).1 := by
  intro fuel
  induction fuel with
  | zero =>
      intro children part visited x hx hxv
      exact absurd hx hxv
  | succ fuel ih =>
      intro children part visited x hx hxv
      by_cases hv : part ∈ visited
      · rw [get_all_descendants, if_pos hv] at hx
        exact absurd hx hxv
      · rw [get_all_descendants, if_neg hv] at hx ⊢
        have hfold : ∀ (cs : List String) (acc : Finset String × Finset String),
            (∀ z ∈ acc.2, z ∉ visited → z ≠ part → ∀ y ∈ children z, y ∈ acc.1) →
            (∀ z ∈ (cs.foldl (fun acc child =>
                let r := get_all_descendants children fuel child acc.2
                (insert child acc.1 ∪ r.1, r.2)) acc).2, z ∉ visited → z ≠ part →
              ∀ y ∈ children z, y ∈ (cs.foldl (fun acc child =>
                let r := get_all_descendants children fuel child acc.2
                (insert child acc.1 ∪ r.1, r.2)) acc).1) := by
          intro cs
          induction cs with
          | nil => intro acc h; exact h
          | cons c cs ihc =>
              intro acc h
              rw [List.foldl_cons]
              refine ihc ⟨insert c acc.1 ∪ (get_all_descendants children fuel c acc.2).1,
                (get_all_descendants children fuel c acc.2).2⟩ ?_
              intro z hz hzv hzp y hy
              by_cases hz2 : z ∈ acc.2
              · have := h z hz2 hzv hzp y hy
                exact Finset.mem_union_left _ (Finset.mem_insert_of_mem this)
              · have := ih children c acc.2 z hz hz2 y hy
                exact Finset.mem_union_right _ this
        by_cases hxp : x = part
        · subst hxp
          intro y hy
          exact dfs_fold_elem children fuel (children x) ⟨∅, insert x visited⟩ y hy
        · exact hfold (children part) ⟨∅, insert part visited⟩
            (by
              intro z hz hzv hzp
              rcases Finset.mem_insert.mp hz with rfl | hz
              · exact absurd rfl hzp
              · exact absurd hz hzv)
            x hx hxv hxp

/-- With fuel exceeding the number of unvisited nodes, every collected
    descendant is also visited. -/
theorem dfs_ds_sub_vis :
    ∀ (fuel : Nat) (children : String → List String) (U : Finset String)
      (part : String) (visited : Finset String),
      (∀ x y, y ∈ children x → y ∈ U) →
      part ∈ U →
      (U \ visited).card < fuel →
      (get_all_descendants children fuel part visited).1 ⊆
        (get_all_descendants children fuel part visited).2 := by
  intro fuel
  induction fuel with
  | zero =>
      intro children U part visited _ _ hcard
      exact absurd hcard (by simp)
  | succ fuel ih =>
      intro children U part visited hU hpart hcard
      by_cases hv : part ∈ visited
      · rw [get_all_descendants, if_pos hv]
        intro x hx
        simp at hx
      · rw [get_all_descendants, if_neg hv]
        have hfold : ∀ (cs : List String) (acc : Finset String × Finset String),
            (∀ c ∈ cs, c ∈ U) →
            acc.1 ⊆ acc.2 →
            (U \ acc.2).card < fuel →
            (cs.foldl (fun acc child =>
              let r := get_all_descendants children fuel child acc.2
              (insert child acc.1 ∪ r.1, r.2)) acc).1 ⊆
            (cs.foldl (fun acc child =>
              let r := get_all_descendants children fuel child acc.2
              (insert child acc.1 ∪ r.1, r.2)) acc).2 := by
          intro cs
          induction cs with
          | nil => intro acc _ h1 _; exact h1
          | cons c cs ihc =>
              intro acc hcs h1 h2
              rw [List.foldl_cons]
              have hcU : c ∈ U := hcs c (by simp)
              have hcr : c ∈ (get_all_descendants children fuel c acc.2).2 := by
                by_cases hc2 : c ∈ acc.2
                · exact dfs_visited_mono fuel children c acc.2 hc2
                · have hpos : 0 < fuel := by
                    have : c ∈ U \ acc.2 := Finset.mem_sdiff.mpr ⟨hcU, hc2⟩
                    have : 0 < (U \ acc.2).card := Finset.card_pos.mpr ⟨c, this⟩
                    omega
                  exact dfs_self_mem children fuel c acc.2 hpos
              have hr12 : (get_all_descendants children fuel c acc.2).1 ⊆
                  (get_all_descendants children fuel c acc.2).2 :=
                ih children U c acc.2 hU hcU h2
              have hmono : acc.2 ⊆ (get_all_descendants children fuel c acc.2).2 :=
                dfs_visited_mono fuel children c acc.2
              refine ihc ⟨insert c acc.1 ∪ (get_all_descendants children fuel c acc.2).1,
                (get_all_descendants children fuel c acc.2).2⟩
                (fun x hx => hcs x (by simp [hx])) ?_ ?_
              · intro x hx
                rcases Finset.mem_union.mp hx with hx | hx
                · rcases Finset.mem_insert.mp hx with rfl | hx
                  · exact hcr
                  · exact hmono (h1 hx)
                · exact hr12 hx
              · have hsub : U \ (get_all_descendants children fuel c acc.2).2 ⊆
                    U \ acc.2 := Finset.sdiff_subset_sdiff (fun x hx => hx) hmono
                have := Finset.card_le_card hsub
                show (U \ (get_all_descendants children fuel c acc.2).2).card < fuel
                omega
        refine hfold (children part) ⟨∅, insert part visited⟩
          (fun c hc => hU part c hc) (by intro x hx; simp at hx) ?_
        have hss : U \ insert part visited ⊂ U \ visited := by
          refine Finset.ssubset_iff_of_subset ?_ |>.mpr ?_
          · intro x hx
            obtain ⟨hx1, hx2⟩ := Finset.mem_sdiff.mp hx
            exact Finset.mem_sdiff.mpr ⟨hx1, fun hxv => hx2 (Finset.mem_insert_of_mem hxv)⟩
          · exact ⟨part, Finset.mem_sdiff.mpr ⟨hpart, hv⟩,
              fun hcontra => (Finset.mem_sdiff.mp hcontra).2 (Finset.mem_insert_self _ _)⟩
        have := Finset.card_lt_card hss
        show (U \ insert part visited).card < fuel
        omega

/-- The DFS descendant set is exactly forward reachability in one or more
    edge steps. -/
theorem descendants_iff (edges : List (String × String)) (a d : String)
    (ha : a ∈ allParts edges) :
    d ∈ descendants edges a ↔ Relation.TransGen (fun x y => (x, y) ∈ edges) a d := by
  constructor
  · intro h
    have hs := (dfs_sound (dfs_fuel edges) (childrenMap edges) a ∅).1 d h
    refine hs.mono ?_
    intro x y hy
    exact (childrenMap_mem edges x y).mp hy
  · intro h
    have hU : ∀ x y, y ∈ childrenMap edges x → y ∈ allParts edges := by
      intro x y hy
      have hxy := (childrenMap_mem edges x y).mp hy
      unfold allParts
      rw [List.mem_toFinset, List.mem_append]
      exact Or.inr (List.mem_map.mpr ⟨(x, y), hxy, rfl⟩)
    have hdsub := dfs_ds_sub_vis (dfs_fuel edges) (childrenMap edges) (allParts edges)
      a ∅ hU ha (by unfold dfs_fuel; simp)
    have hself : a ∈ (get_all_descendants (childrenMap edges) (dfs_fuel edges) a ∅).2 :=
      dfs_self_mem _ _ _ _ (by unfold dfs_fuel; omega)
    have hcov := dfs_children_covered (dfs_fuel edges) (childrenMap edges) a ∅
    induction h with
    | single hstep =>
        exact hcov a hself (by simp) _ ((childrenMap_mem edges a _).mpr hstep)
    | tail h1 hstep ih =>
        have hbvis := hdsub ih
        exact hcov _ hbvis (by simp) _ ((childrenMap_mem edges _ _).mpr hstep)

/-- C5: on the diamond (A,B),(A,C),(B,D),(C,D) the partOfAssembly pairs with
    first component D are exactly (D,A),(D,B),(D,C) — the full ancestor set —
    while the usedIn pairs for D are exactly (D,B),(D,C); in general usedIn
    is the edge set with parent and child swapped, and a pair (d, a) is
    emitted exactly when a reaches d by one or more forward edges. -/
theorem c5_derived_relationships :
    ((build_part_of_assembly_pairs [("A", "B"), ("A", "C"), ("B", "D"), ("C", "D")]).filter
        (fun p => p.1 == "D") = {("D", "A"), ("D", "B"), ("D", "C")}) ∧
    ((build_used_in_pairs [("A", "B"), ("A", "C"), ("B", "D"), ("C", "D")]).filter
        (fun p => p.1 == "D") = [("D", "B"), ("D", "C")]) ∧
    (∀ (edges : List (String × String)) (x y : String),
      (x, y) ∈ build_used_in_pairs edges ↔ (y, x) ∈ edges) ∧
    (∀ (edges : List (String × String)) (d a : String),
      (d, a) ∈ build_part_of_assembly_pairs edges ↔
        Relation.TransGen (fun x y => (x, y) ∈ edges) a d) := by
  refine ⟨by decide, by decide, ?_, ?_⟩
  · intro edges x y
    unfold build_used_in_pairs
    constructor
    · intro h
      obtain ⟨⟨p, q⟩, he, heq⟩ := List.mem_map.mp h
      injection heq with h1 h2
      rw [← h1, ← h2]
      exact he
    · intro h
      exact List.mem_map.mpr ⟨(y, x), h, rfl⟩
  · intro edges d a
    constructor
    · intro h
      obtain ⟨a2, ha2, hmem⟩ := Finset.mem_biUnion.mp h
      obtain ⟨d2, hd2, heq⟩ := Finset.mem_image.mp hmem
      injection heq with h1 h2
      subst h1
      subst h2
      exact (descendants_iff edges a2 d2 ha2).mp hd2
    · intro h
      have ha : a ∈ allParts edges := by
        induction h with
        | single hstep =>
            unfold allParts
            rw [List.mem_toFinset, List.mem_append]
            exact Or.inl (List.mem_map.mpr ⟨(a, _), hstep, rfl⟩)
        | tail h1 _ ih => exact ih
      exact Finset.mem_biUnion.mpr
        ⟨a, ha, Finset.mem_image.mpr ⟨d, (descendants_iff edges a d ha).mpr h, rfl⟩⟩

end XlsxGraph
